import Mathlib

/-!
# Historical info store of the staking keeper

A shallow embedding of `x/staking/keeper/historical_info.go`:
`GetHistoricalInfo`, `SetHistoricalInfo`, `DeleteHistoricalInfo` and
`TrackHistoricalInfo`, over a key-value store given as a function from byte keys
to optional byte values.  A Go panic is the result `none`.

The manager of package `types/module`, of which the sources hold only the
test, is modelled from the specification in the namespace `SdkModule`.
-/

namespace Staking

/-! ## Data model -/

/-- Byte strings: store keys and encoded values. -/
abbrev Bytes := List UInt8

/-- The key-value store of the staking module (`ctx.KVStore(k.storeKey)`).
`none` is the `nil` that `store.Get` returns for an absent key. -/
abbrev KVStore := Bytes → Option Bytes

/-- The store method `Get`. -/
def KVStore.Get (store : KVStore) (key : Bytes) : Option Bytes := store key

/-- The store method `Set`. -/
def KVStore.Set (store : KVStore) (key value : Bytes) : KVStore :=
  fun b => if b = key then some value else store b

/-- The store method `Delete`. -/
def KVStore.Delete (store : KVStore) (key : Bytes) : KVStore :=
  fun b => if b = key then none else store b

/-- The store with no key at all. -/
def KVStore.empty : KVStore := fun _ => none

/-- Modelled from the spec: the declaration of `types.HistoricalInfo` is not among
the sources; the data model describes it as a block header together with an
ordered sequence of validators. -/
structure HistoricalInfo (H V : Type) where
  Header : H
  ValSet : List V
deriving DecidableEq, Repr

/-- The part of `sdk.Context` that the keeper reads: the height and header of the
current block, the value that `k.HistoricalEntries(ctx)` reads from the module
parameters, and the staking store. -/
structure Context (H : Type) where
  BlockHeight : Int
  BlockHeader : H
  HistoricalEntries : Nat
  store : KVStore

/-- The keeper, with the functions of package `types` and the keeper method that
the sources call but do not contain taken as fields.
`MustUnmarshalHistoricalInfo` returns `none` where the Go function panics. -/
structure Keeper (H V : Type) where
  GetHistoricalInfoKey : Int → Bytes
  MustMarshalHistoricalInfo : HistoricalInfo H V → Bytes
  MustUnmarshalHistoricalInfo : Bytes → Option (HistoricalInfo H V)
  NewHistoricalInfo : H → List V → HistoricalInfo H V
  GetLastValidators : Context H → List V

/-- The value of a Go `int64` computation whose mathematical result is `x`
(two's complement wrap-around). -/
def wrapInt64 (x : Int) : Int :=
  (x + 9223372036854775808) % 18446744073709551616 - 9223372036854775808

/-- The greatest `int64`, Go's `math.MaxInt64`. -/
abbrev MaxInt64 : Int := 9223372036854775807

/-- The least `int64`, Go's `math.MinInt64`. -/
abbrev MinInt64 : Int := -9223372036854775808

/-! ## Operations -/

section Operations

variable {H V : Type}

/-- `Keeper.GetHistoricalInfo`: the entry at `height` and `true`, or the zero
value and `false` when the key is absent; `none` when the stored value does not
decode (panic). -/
def GetHistoricalInfo [Inhabited H] (k : Keeper H V) (ctx : Context H) (height : Int) :
    Option (HistoricalInfo H V × Bool) :=
  let store := ctx.store
  let key := k.GetHistoricalInfoKey height
  match store.Get key with
  | none => some (⟨default, []⟩, false)
  | some value =>
    match k.MustUnmarshalHistoricalInfo value with
    | none => none
    | some hi => some (hi, true)

/-- `Keeper.SetHistoricalInfo`. -/
def SetHistoricalInfo (k : Keeper H V) (ctx : Context H) (height : Int)
    (hi : HistoricalInfo H V) : Context H :=
  let key := k.GetHistoricalInfoKey height
  let value := k.MustMarshalHistoricalInfo hi
  { ctx with store := ctx.store.Set key value }

/-- `Keeper.DeleteHistoricalInfo`. -/
def DeleteHistoricalInfo (k : Keeper H V) (ctx : Context H) (height : Int) : Context H :=
  let key := k.GetHistoricalInfoKey height
  { ctx with store := ctx.store.Delete key }

/-- The pruning loop of `TrackHistoricalInfo`,
`for i := start; i >= 0; i-- { ... }`, with the loop variable `i` given as
`n = i + 1`: at `n = 0` the condition `i >= 0` fails; at `n + 1` the body runs
for `i = n` and the loop goes on with `i - 1`. -/
def pruneLoop [Inhabited H] (k : Keeper H V) (ctx : Context H) : Nat → Option (Context H)
  | 0 => some ctx
  | n + 1 =>
    match GetHistoricalInfo k ctx (n : Int) with
    | none => none
    | some (_, true) => pruneLoop k (DeleteHistoricalInfo k ctx (n : Int)) n
    | some (_, false) => some ctx

/-- How a run of the pruning loop ends: it left the loop (by its condition or
by `break`) with a context, it panicked in a lookup, or the model ran out of
fuel before the loop was over. -/
inductive LoopEnd (α : Type) where
  | finished (a : α)
  | panicked
  | outOfFuel

/-- The end of a run that is known to be over: `none` is the panic. -/
def LoopEnd.ofOption {α : Type} : Option α → LoopEnd α
  | some a => LoopEnd.finished a
  | none => LoopEnd.panicked

/-- A run of the pruning loop with its cost: how it ended, the number of calls
of `GetHistoricalInfo` and the number of calls of `DeleteHistoricalInfo`. -/
structure LoopRun (α : Type) where
  result : LoopEnd α
  lookups : Nat
  deletions : Nat

/-- The pruning loop of `TrackHistoricalInfo` as the source writes it,
`for i := start; i >= 0; i-- { ... }`, on the `int64` loop variable `i` itself;
each `fuel` pays for one test of the condition with its iteration. -/
def pruneLoopFuel [Inhabited H] (k : Keeper H V) :
    Nat → Context H → Int → LoopRun (Context H)
  | 0, ctx, i => if i ≥ 0 then ⟨LoopEnd.outOfFuel, 0, 0⟩ else ⟨LoopEnd.finished ctx, 0, 0⟩
  | fuel + 1, ctx, i =>
    if i ≥ 0 then
      match GetHistoricalInfo k ctx i with
      | none => ⟨LoopEnd.panicked, 1, 0⟩
      | some (_, true) =>
        let r := pruneLoopFuel k fuel (DeleteHistoricalInfo k ctx i) (i - 1)
        ⟨r.result, r.lookups + 1, r.deletions + 1⟩
      | some (_, false) => ⟨LoopEnd.finished ctx, 1, 0⟩
    else ⟨LoopEnd.finished ctx, 0, 0⟩

/-- `Keeper.TrackHistoricalInfo`: the context after the call, `none` on panic. -/
def TrackHistoricalInfo [Inhabited H] (k : Keeper H V) (ctx : Context H) :
    Option (Context H) :=
  let entryNum := ctx.HistoricalEntries
  let start := wrapInt64 (ctx.BlockHeight - wrapInt64 (entryNum : Int))
  match pruneLoop k ctx (start + 1).toNat with
  | none => none
  | some ctx1 =>
    if entryNum = 0 then some ctx1
    else
      let lastVals := k.GetLastValidators ctx1
      let historicalEntry := k.NewHistoricalInfo ctx1.BlockHeader lastVals
      some (SetHistoricalInfo k ctx1 ctx1.BlockHeight historicalEntry)

/-- Whether the store holds a value under the key of `height`. -/
def hasEntry (k : Keeper H V) (store : KVStore) (height : Int) : Bool :=
  (store.Get (k.GetHistoricalInfoKey height)).isSome

/-- One call of `TrackHistoricalInfo` per block: heights `h0`, `h0 + 1`, ... are
tracked in turn, the block at the i-th of them with the i-th window of the list
and the header `hdr` gives it; the store of each call is the one the call before
left. -/
def trackBlocks [Inhabited H] (k : Keeper H V) (hdr : Int → H) (store : KVStore)
    (h0 : Int) : List Nat → Option KVStore
  | [] => some store
  | w :: ws =>
    match TrackHistoricalInfo k ⟨h0, hdr h0, w, store⟩ with
    | none => none
    | some ctx1 => trackBlocks k hdr ctx1.store (h0 + 1) ws

/-- Every value stored under the key of a height decodes: no lookup panics. -/
def Decodes (k : Keeper H V) (store : KVStore) : Prop :=
  ∀ (h : Int) (v : Bytes), store (k.GetHistoricalInfoKey h) = some v →
    ∃ hi, k.MustUnmarshalHistoricalInfo v = some hi

/-- The codec decodes what it encoded. -/
def RoundTrip (k : Keeper H V) : Prop :=
  ∀ hi, k.MustUnmarshalHistoricalInfo (k.MustMarshalHistoricalInfo hi) = some hi

end Operations

/-! ## A concrete keeper -/

/-- A key encoding: a tag byte, a sign byte and the magnitude in unary. -/
def demoKey (height : Int) : Bytes :=
  80 :: (if height < 0 then 45 else 43) :: List.replicate height.natAbs 49

/-- An encoding of snapshots over `Unit` headers and validators: one byte `1`
per validator. -/
def demoMarshal (hi : HistoricalInfo Unit Unit) : Bytes :=
  List.replicate hi.ValSet.length 1

/-- The decoder of `demoMarshal`; a value with another byte does not decode. -/
def demoUnmarshal (value : Bytes) : Option (HistoricalInfo Unit Unit) :=
  if value.all (fun b => b == 1) then some ⟨(), List.replicate value.length ()⟩ else none

/-- A store with the empty value under the key of each of the given heights
and nothing else. -/
def demoStore (heights : List Int) : KVStore :=
  fun b => if heights.any (fun h => b == demoKey h) then some [] else none

/-- A keeper over `Unit` headers and validators whose validator set is empty. -/
def demoKeeper : Keeper Unit Unit where
  GetHistoricalInfoKey := demoKey
  MustMarshalHistoricalInfo := demoMarshal
  MustUnmarshalHistoricalInfo := demoUnmarshal
  NewHistoricalInfo := fun h vs => ⟨h, vs⟩
  GetLastValidators := fun _ => []

end Staking

/-! ## The module manager -/

namespace SdkModule

/-- Modelled from the spec: package `types/module` is not among the sources,
only its test is.  A module as the manager sees it: the name that `Name()`
reports and the payload that `DefaultGenesis()` returns. -/
structure AppModule where
  Name : String
  DefaultGenesis : List UInt8
deriving DecidableEq

/-- Modelled from the spec: the configuration errors, raised at setup: a module
name registered twice, and an order list that is not a permutation of the
registered module names. -/
inductive ConfigError where
  | duplicateModule (name : String)
  | orderNotPermutation (names : List String)
deriving DecidableEq

/-- Modelled from the spec: the manager of package `types/module`, which is not
among the sources: the registry from names to modules, in insertion order, and
the four order lists. -/
structure Manager where
  Modules : List (String × AppModule)
  OrderInitGenesis : List String
  OrderExportGenesis : List String
  OrderBeginBlockers : List String
  OrderEndBlockers : List String
deriving DecidableEq

/-- Modelled from the spec: the key set of the registry of a manager, in
insertion order. -/
def Manager.moduleNames (m : Manager) : List String := m.Modules.map Prod.fst

/-- Modelled from the spec: the registration of one module by `NewManager`,
under the name it reports; a name that is registered already fails. -/
def register (reg : List (String × AppModule)) (a : AppModule) :
    Except ConfigError (List (String × AppModule)) :=
  if reg.any (fun e => e.1 == a.Name) then Except.error (ConfigError.duplicateModule a.Name)
  else Except.ok (reg ++ [(a.Name, a)])

/-- Modelled from the spec: the registration of the modules of `NewManager`, one
after the other in the order they were passed in. -/
def registerAll : List (String × AppModule) → List AppModule →
    Except ConfigError (List (String × AppModule))
  | reg, [] => Except.ok reg
  | reg, a :: rest =>
    match register reg a with
    | Except.error e => Except.error e
    | Except.ok reg1 => registerAll reg1 rest

/-- Modelled from the spec: `NewManager` of package `types/module`, which is not
among the sources: every module is registered under its name, a duplicate name
fails the construction, and the four order lists are the registration order. -/
def NewManager (modules : List AppModule) : Except ConfigError Manager :=
  match registerAll [] modules with
  | Except.error e => Except.error e
  | Except.ok reg =>
    let names := reg.map Prod.fst
    Except.ok ⟨reg, names, names, names, names⟩

/-- Modelled from the spec: whether a list of names names some name twice. -/
def hasDuplicate : List String → Bool
  | [] => false
  | n :: ns => ns.contains n || hasDuplicate ns

/-- Modelled from the spec: the validation of the order setters, which are not
among the sources: no registered name is missing, no name is unknown, no name
is a duplicate. -/
def validateOrder (registered names : List String) : Bool :=
  registered.all (fun n => names.contains n) &&
    names.all (fun n => registered.contains n) && !hasDuplicate names

/-- Modelled from the spec: `SetOrderInitGenesis`, not among the sources: the
list replaces `OrderInitGenesis` when it is a permutation of the registered
names, and is a configuration error otherwise. -/
def Manager.SetOrderInitGenesis (m : Manager) (moduleNames : List String) :
    Except ConfigError Manager :=
  if validateOrder m.moduleNames moduleNames then
    Except.ok { m with OrderInitGenesis := moduleNames }
  else Except.error (ConfigError.orderNotPermutation moduleNames)

/-- Modelled from the spec: `SetOrderExportGenesis`, not among the sources: the
list replaces `OrderExportGenesis` when it is a permutation of the registered
names, and is a configuration error otherwise. -/
def Manager.SetOrderExportGenesis (m : Manager) (moduleNames : List String) :
    Except ConfigError Manager :=
  if validateOrder m.moduleNames moduleNames then
    Except.ok { m with OrderExportGenesis := moduleNames }
  else Except.error (ConfigError.orderNotPermutation moduleNames)

/-- Modelled from the spec: `SetOrderBeginBlockers`, not among the sources: the
list replaces `OrderBeginBlockers` when it is a permutation of the registered
names, and is a configuration error otherwise. -/
def Manager.SetOrderBeginBlockers (m : Manager) (moduleNames : List String) :
    Except ConfigError Manager :=
  if validateOrder m.moduleNames moduleNames then
    Except.ok { m with OrderBeginBlockers := moduleNames }
  else Except.error (ConfigError.orderNotPermutation moduleNames)

/-- Modelled from the spec: `SetOrderEndBlockers`, not among the sources: the
list replaces `OrderEndBlockers` when it is a permutation of the registered
names, and is a configuration error otherwise. -/
def Manager.SetOrderEndBlockers (m : Manager) (moduleNames : List String) :
    Except ConfigError Manager :=
  if validateOrder m.moduleNames moduleNames then
    Except.ok { m with OrderEndBlockers := moduleNames }
  else Except.error (ConfigError.orderNotPermutation moduleNames)

/-- Modelled from the spec: the invariant of the data model: the registered
names are distinct and each order list is a permutation of them. -/
def Manager.Valid (m : Manager) : Prop :=
  m.moduleNames.Nodup ∧ m.OrderInitGenesis.Perm m.moduleNames ∧
    m.OrderExportGenesis.Perm m.moduleNames ∧ m.OrderBeginBlockers.Perm m.moduleNames ∧
    m.OrderEndBlockers.Perm m.moduleNames

/-- Modelled from the spec: the managers a host can hold: one that
`NewManager` built, after any number of calls of order setters that did not
fail. -/
inductive Manager.Configured : Manager → Prop where
  | new (modules : List AppModule) (m : Manager) :
      NewManager modules = Except.ok m → Manager.Configured m
  | setInitGenesis (m m1 : Manager) (names : List String) : Manager.Configured m →
      m.SetOrderInitGenesis names = Except.ok m1 → Manager.Configured m1
  | setExportGenesis (m m1 : Manager) (names : List String) : Manager.Configured m →
      m.SetOrderExportGenesis names = Except.ok m1 → Manager.Configured m1
  | setBeginBlockers (m m1 : Manager) (names : List String) : Manager.Configured m →
      m.SetOrderBeginBlockers names = Except.ok m1 → Manager.Configured m1
  | setEndBlockers (m m1 : Manager) (names : List String) : Manager.Configured m →
      m.SetOrderEndBlockers names = Except.ok m1 → Manager.Configured m1

/-- The two modules of the test `TestManagerOrderSetters`. -/
def testModules : List AppModule := [⟨"module1", []⟩, ⟨"module2", [1]⟩]

/-- The manager that `NewManager` builds from the two modules of the test. -/
def testManager : Manager :=
  ⟨[("module1", ⟨"module1", []⟩), ("module2", ⟨"module2", [1]⟩)],
    ["module1", "module2"], ["module1", "module2"], ["module1", "module2"],
    ["module1", "module2"]⟩

end SdkModule

namespace Staking

/-! ## The pruning loop -/

section Lemmas

variable {H V : Type} [Inhabited H]

theorem wrapInt64_of_range (x : Int) (h1 : -9223372036854775808 ≤ x)
    (h2 : x < 9223372036854775808) : wrapInt64 x = x := by
  unfold wrapInt64
  omega

omit [Inhabited H] in
theorem hasEntry_eq_true_iff (k : Keeper H V) (store : KVStore) (h : Int) :
    hasEntry k store h = true ↔ ∃ v, store (k.GetHistoricalInfoKey h) = some v := by
  unfold hasEntry KVStore.Get
  cases store (k.GetHistoricalInfoKey h) <;> simp

omit [Inhabited H] in
theorem hasEntry_eq_false_iff (k : Keeper H V) (store : KVStore) (h : Int) :
    hasEntry k store h = false ↔ store (k.GetHistoricalInfoKey h) = none := by
  unfold hasEntry KVStore.Get
  cases store (k.GetHistoricalInfoKey h) <;> simp

theorem GetHistoricalInfo_absent (k : Keeper H V) (ctx : Context H) (h : Int)
    (hv : ctx.store (k.GetHistoricalInfoKey h) = none) :
    GetHistoricalInfo k ctx h = some (⟨default, []⟩, false) := by
  simp only [GetHistoricalInfo, KVStore.Get, hv]

theorem GetHistoricalInfo_present (k : Keeper H V) (ctx : Context H) (h : Int) (v : Bytes)
    (hi : HistoricalInfo H V) (hv : ctx.store (k.GetHistoricalInfoKey h) = some v)
    (hd : k.MustUnmarshalHistoricalInfo v = some hi) :
    GetHistoricalInfo k ctx h = some (hi, true) := by
  simp only [GetHistoricalInfo, KVStore.Get, hv, hd]

theorem GetHistoricalInfo_corrupt (k : Keeper H V) (ctx : Context H) (h : Int) (v : Bytes)
    (hv : ctx.store (k.GetHistoricalInfoKey h) = some v)
    (hd : k.MustUnmarshalHistoricalInfo v = none) :
    GetHistoricalInfo k ctx h = none := by
  simp only [GetHistoricalInfo, KVStore.Get, hv, hd]

/-- What the pruning loop does when it returns: started with `n = i + 1` it
deletes the keys of the heights `m .. n - 1`, all of which held a value, where
`m` is `0` or the height just above the first one without a value; nothing else
changes. -/
theorem pruneLoop_spec (k : Keeper H V) (hinj : Function.Injective k.GetHistoricalInfoKey) :
    ∀ (n : Nat) (ctx ctx1 : Context H), pruneLoop k ctx n = some ctx1 →
      ctx1.BlockHeight = ctx.BlockHeight ∧ ctx1.BlockHeader = ctx.BlockHeader ∧
      ctx1.HistoricalEntries = ctx.HistoricalEntries ∧
      ∃ m : Nat, m ≤ n ∧
        (∀ j : Nat, m ≤ j → j < n → hasEntry k ctx.store (j : Int) = true) ∧
        (m = 0 ∨ hasEntry k ctx.store ((m : Int) - 1) = false) ∧
        (∀ j : Nat, m ≤ j → j < n → ctx1.store (k.GetHistoricalInfoKey (j : Int)) = none) ∧
        (∀ b : Bytes, (∀ j : Nat, m ≤ j → j < n → b ≠ k.GetHistoricalInfoKey (j : Int)) →
          ctx1.store b = ctx.store b) := by
  intro n
  induction n with
  | zero =>
    intro ctx ctx1 h
    simp only [pruneLoop, Option.some.injEq] at h
    subst h
    refine ⟨rfl, rfl, rfl, 0, le_refl _, ?_, Or.inl rfl, ?_, ?_⟩
    · intro j _ hj; omega
    · intro j _ hj; omega
    · intro b _; rfl
  | succ n ih =>
    intro ctx ctx1 h
    unfold pruneLoop at h
    cases hv : ctx.store (k.GetHistoricalInfoKey (n : Int)) with
    | none =>
      rw [GetHistoricalInfo_absent k ctx _ hv] at h
      simp only [Option.some.injEq] at h
      subst h
      refine ⟨rfl, rfl, rfl, n + 1, le_refl _, ?_, Or.inr ?_, ?_, ?_⟩
      · intro j h1 h2; omega
      · rw [hasEntry_eq_false_iff]
        have : ((n + 1 : Nat) : Int) - 1 = (n : Int) := by omega
        rw [this]; exact hv
      · intro j h1 h2; omega
      · intro b _; rfl
    | some v =>
      cases hd : k.MustUnmarshalHistoricalInfo v with
      | none => rw [GetHistoricalInfo_corrupt k ctx _ v hv hd] at h; simp at h
      | some hi =>
        rw [GetHistoricalInfo_present k ctx _ v hi hv hd] at h
        simp only at h
        obtain ⟨e1, e2, e3, m, hm, hall, hstop, hdel, hframe⟩ := ih _ _ h
        have hne : ∀ j : Nat, j < n →
            k.GetHistoricalInfoKey (j : Int) ≠ k.GetHistoricalInfoKey (n : Int) := by
          intro j hj heq
          have := hinj heq
          omega
        have hstore : ∀ b, (DeleteHistoricalInfo k ctx (n : Int)).store b
            = if b = k.GetHistoricalInfoKey (n : Int) then none else ctx.store b := by
          intro b; rfl
        refine ⟨e1, e2, e3, m, by omega, ?_, ?_, ?_, ?_⟩
        · intro j h1 h2
          by_cases hjn : j = n
          · subst hjn
            rw [hasEntry_eq_true_iff]; exact ⟨v, hv⟩
          · have hj : j < n := by omega
            have := hall j h1 hj
            rw [hasEntry_eq_true_iff] at this ⊢
            obtain ⟨w, hw⟩ := this
            rw [hstore, if_neg (hne j hj)] at hw
            exact ⟨w, hw⟩
        · rcases hstop with h0 | hs
          · exact Or.inl h0
          · by_cases hm0 : m = 0
            · exact Or.inl hm0
            · right
              rw [hasEntry_eq_false_iff] at hs ⊢
              rw [hstore] at hs
              have hcast : (m : Int) - 1 = ((m - 1 : Nat) : Int) := by omega
              rw [hcast] at hs ⊢
              rw [if_neg (hne (m - 1) (by omega))] at hs
              exact hs
        · intro j h1 h2
          by_cases hjn : j = n
          · subst hjn
            rw [hframe _ (fun i _ hi => (hne i hi).symm), hstore, if_pos rfl]
          · exact hdel j h1 (by omega)
        · intro b hb
          rw [hframe b (fun j h1 h2 => hb j h1 (by omega)), hstore,
            if_neg (hb n hm (by omega))]

/-- The pruning loop returns when the stored entries decode. -/
theorem pruneLoop_total (k : Keeper H V) :
    ∀ (n : Nat) (ctx : Context H), Decodes k ctx.store → ∃ ctx1, pruneLoop k ctx n = some ctx1 := by
  intro n
  induction n with
  | zero => intro ctx _; exact ⟨ctx, rfl⟩
  | succ n ih =>
    intro ctx hdec
    unfold pruneLoop
    cases hv : ctx.store (k.GetHistoricalInfoKey (n : Int)) with
    | none => rw [GetHistoricalInfo_absent k ctx _ hv]; exact ⟨ctx, rfl⟩
    | some v =>
      obtain ⟨hi, hhi⟩ := hdec _ _ hv
      rw [GetHistoricalInfo_present k ctx _ v hi hv hhi]
      simp only
      apply ih
      intro h w hw
      have hw2 : (if k.GetHistoricalInfoKey h = k.GetHistoricalInfoKey (n : Int) then none
          else ctx.store (k.GetHistoricalInfoKey h)) = some w := hw
      by_cases hc : k.GetHistoricalInfoKey h = k.GetHistoricalInfoKey (n : Int)
      · rw [if_pos hc] at hw2; simp at hw2
      · rw [if_neg hc] at hw2; exact hdec _ _ hw2

/-- The pruning loop seen at the keys of heights: it returns the store without
the heights `m .. n - 1`. -/
theorem pruneLoop_heights (k : Keeper H V) (hinj : Function.Injective k.GetHistoricalInfoKey)
    (n : Nat) (ctx ctx1 : Context H) (h : pruneLoop k ctx n = some ctx1) :
    ∃ m : Nat, m ≤ n ∧
      (∀ x : Int, (m : Int) ≤ x → x < (n : Int) → hasEntry k ctx.store x = true) ∧
      (m = 0 ∨ hasEntry k ctx.store ((m : Int) - 1) = false) ∧
      (∀ x : Int, ctx1.store (k.GetHistoricalInfoKey x)
        = if (m : Int) ≤ x ∧ x < (n : Int) then none else ctx.store (k.GetHistoricalInfoKey x)) ∧
      (∀ b : Bytes, (∀ x : Int, b ≠ k.GetHistoricalInfoKey x) → ctx1.store b = ctx.store b) := by
  obtain ⟨_, _, _, m, hm, hall, hstop, hdel, hframe⟩ := pruneLoop_spec k hinj n ctx ctx1 h
  refine ⟨m, hm, ?_, hstop, ?_, ?_⟩
  · intro x h1 h2
    have hx : x = ((x.toNat : Nat) : Int) := by omega
    rw [hx]
    exact hall x.toNat (by omega) (by omega)
  · intro x
    by_cases hc : (m : Int) ≤ x ∧ x < (n : Int)
    · rw [if_pos hc]
      have hx : x = ((x.toNat : Nat) : Int) := by omega
      rw [hx]
      exact hdel x.toNat (by omega) (by omega)
    · rw [if_neg hc]
      apply hframe
      intro j h1 h2 heq
      have := hinj heq
      omega
  · intro b hb
    exact hframe b (fun j _ _ => hb j)

/-- `TrackHistoricalInfo` is the pruning loop followed by the write. -/
theorem track_unfold (k : Keeper H V) (ctx ctx2 : Context H) :
    TrackHistoricalInfo k ctx = some ctx2 ↔
      ∃ ctx1, pruneLoop k ctx
          (wrapInt64 (ctx.BlockHeight - wrapInt64 (ctx.HistoricalEntries : Int)) + 1).toNat
          = some ctx1 ∧
        ctx2 = if ctx.HistoricalEntries = 0 then ctx1
          else SetHistoricalInfo k ctx1 ctx1.BlockHeight
            (k.NewHistoricalInfo ctx1.BlockHeader (k.GetLastValidators ctx1)) := by
  unfold TrackHistoricalInfo
  simp only
  cases hp : pruneLoop k ctx
      (wrapInt64 (ctx.BlockHeight - wrapInt64 (ctx.HistoricalEntries : Int)) + 1).toNat with
  | none => simp
  | some ctx1 =>
    by_cases hz : ctx.HistoricalEntries = 0
    · simp [hz, eq_comm]
    · simp [hz, eq_comm]

/-- `TrackHistoricalInfo` returns when the stored entries decode. -/
theorem track_total (k : Keeper H V) (ctx : Context H) (hdec : Decodes k ctx.store) :
    ∃ ctx2, TrackHistoricalInfo k ctx = some ctx2 := by
  obtain ⟨ctx1, h1⟩ := pruneLoop_total k
    (wrapInt64 (ctx.BlockHeight - wrapInt64 (ctx.HistoricalEntries : Int)) + 1).toNat ctx hdec
  exact ⟨_, (track_unfold k ctx _).2 ⟨ctx1, h1, rfl⟩⟩

/-- Without overflow the scan starts at `BlockHeight - HistoricalEntries`. -/
theorem start_eq (c : Int) (w : Nat) (hw : (w : Int) ≤ MaxInt64)
    (hlo : MinInt64 ≤ c - (w : Int)) (hhi : c ≤ MaxInt64) :
    wrapInt64 (c - wrapInt64 (w : Int)) = c - (w : Int) := by
  simp only [MaxInt64, MinInt64] at hw hlo hhi
  rw [wrapInt64_of_range (w : Int) (by omega) (by omega)]
  exact wrapInt64_of_range _ (by omega) (by omega)

/-- `TrackHistoricalInfo` at the keys of heights, when `BlockHeight -
HistoricalEntries` does not overflow: the heights `m .. BlockHeight -
HistoricalEntries` are deleted, all of which held a value, `m` being `0` or the
height just above the first one without a value; then the current height is
written unless the window is `0`. -/
theorem track_spec (k : Keeper H V) (hinj : Function.Injective k.GetHistoricalInfoKey)
    (ctx ctx2 : Context H) (hw : (ctx.HistoricalEntries : Int) ≤ MaxInt64)
    (hlo : MinInt64 ≤ ctx.BlockHeight - (ctx.HistoricalEntries : Int))
    (hhi : ctx.BlockHeight ≤ MaxInt64)
    (h : TrackHistoricalInfo k ctx = some ctx2) :
    ∃ (ctx1 : Context H) (m : Nat),
      (m : Int) ≤ max 0 (ctx.BlockHeight - (ctx.HistoricalEntries : Int) + 1) ∧
      (∀ x : Int, (m : Int) ≤ x → x ≤ ctx.BlockHeight - (ctx.HistoricalEntries : Int) →
        hasEntry k ctx.store x = true) ∧
      (m = 0 ∨ hasEntry k ctx.store ((m : Int) - 1) = false) ∧
      (∀ x : Int, ctx1.store (k.GetHistoricalInfoKey x)
        = if (m : Int) ≤ x ∧ x ≤ ctx.BlockHeight - (ctx.HistoricalEntries : Int) then none
          else ctx.store (k.GetHistoricalInfoKey x)) ∧
      (∀ b : Bytes, (∀ x : Int, b ≠ k.GetHistoricalInfoKey x) → ctx1.store b = ctx.store b) ∧
      ctx1.BlockHeight = ctx.BlockHeight ∧ ctx1.BlockHeader = ctx.BlockHeader ∧
      ctx1.HistoricalEntries = ctx.HistoricalEntries ∧
      ctx2 = if ctx.HistoricalEntries = 0 then ctx1
        else SetHistoricalInfo k ctx1 ctx.BlockHeight
          (k.NewHistoricalInfo ctx.BlockHeader (k.GetLastValidators ctx1)) := by
  obtain ⟨ctx1, hp, h2⟩ := (track_unfold k ctx ctx2).1 h
  rw [start_eq _ _ hw hlo hhi] at hp
  obtain ⟨e1, e2, e3, _⟩ := pruneLoop_spec k hinj _ ctx ctx1 hp
  obtain ⟨m, hm, hall, hstop, hdel, hframe⟩ := pruneLoop_heights k hinj _ ctx ctx1 hp
  refine ⟨ctx1, m, by omega, ?_, hstop, ?_, hframe, e1, e2, e3, ?_⟩
  · intro x h1 h2
    exact hall x h1 (by omega)
  · intro x
    rw [hdel x]
    by_cases hc : (m : Int) ≤ x ∧ x ≤ ctx.BlockHeight - (ctx.HistoricalEntries : Int)
    · rw [if_pos hc, if_pos ⟨hc.1, by omega⟩]
    · rw [if_neg hc, if_neg (by omega)]
  · rw [h2, e1, e2]

/-- A property that no deletion of a historical entry changes is not changed by
the pruning loop. -/
theorem pruneLoop_preserves (k : Keeper H V) (P : Context H → Prop)
    (hP : ∀ (c : Context H) (h : Int), P c → P (DeleteHistoricalInfo k c h)) :
    ∀ (n : Nat) (ctx ctx1 : Context H), pruneLoop k ctx n = some ctx1 → P ctx → P ctx1 := by
  intro n
  induction n with
  | zero =>
    intro ctx ctx1 h hp
    simp only [pruneLoop, Option.some.injEq] at h
    exact h ▸ hp
  | succ n ih =>
    intro ctx ctx1 h hp
    unfold pruneLoop at h
    cases hg : GetHistoricalInfo k ctx (n : Int) with
    | none => rw [hg] at h; simp at h
    | some r =>
      obtain ⟨hi, found⟩ := r
      rw [hg] at h
      cases found with
      | true => exact ih _ _ h (hP ctx _ hp)
      | false =>
        simp only [Option.some.injEq] at h
        exact h ▸ hp

/-- The pruning loop returns at once, with nothing deleted, when the height it
starts at holds no value or is negative. -/
theorem pruneLoop_absent (k : Keeper H V) (ctx : Context H) (start : Int)
    (habs : start < 0 ∨ ctx.store (k.GetHistoricalInfoKey start) = none) :
    pruneLoop k ctx (start + 1).toNat = some ctx := by
  by_cases hneg : start < 0
  · have : (start + 1).toNat = 0 := by omega
    rw [this]; rfl
  · have hv : ctx.store (k.GetHistoricalInfoKey start) = none := by
      rcases habs with h | h
      · exact absurd h hneg
      · exact h
    have h1 : (start + 1).toNat = start.toNat + 1 := by omega
    have h2 : ((start.toNat : Nat) : Int) = start := by omega
    rw [h1]
    unfold pruneLoop
    rw [h2, GetHistoricalInfo_absent k ctx _ hv]

/-- `TrackHistoricalInfo` deletes nothing when the height `BlockHeight -
HistoricalEntries` holds no value or is negative. -/
theorem track_of_absent (k : Keeper H V) (ctx : Context H)
    (hw : (ctx.HistoricalEntries : Int) ≤ MaxInt64)
    (hlo : MinInt64 ≤ ctx.BlockHeight - (ctx.HistoricalEntries : Int))
    (hhi : ctx.BlockHeight ≤ MaxInt64)
    (habs : ctx.BlockHeight - (ctx.HistoricalEntries : Int) < 0 ∨
      ctx.store (k.GetHistoricalInfoKey (ctx.BlockHeight - (ctx.HistoricalEntries : Int))) = none) :
    TrackHistoricalInfo k ctx = some (if ctx.HistoricalEntries = 0 then ctx
      else SetHistoricalInfo k ctx ctx.BlockHeight
        (k.NewHistoricalInfo ctx.BlockHeader (k.GetLastValidators ctx))) := by
  rw [track_unfold]
  refine ⟨ctx, ?_, rfl⟩
  rw [start_eq _ _ hw hlo hhi]
  exact pruneLoop_absent k ctx _ habs

/-- With window `0`, at a height `c ≥ 0` that holds no value,
`TrackHistoricalInfo` returns the context as it was: nothing is pruned. -/
theorem track_zero_window_absent (k : Keeper H V) (ctx : Context H)
    (hz : ctx.HistoricalEntries = 0) (h0 : 0 ≤ ctx.BlockHeight)
    (hhi : ctx.BlockHeight ≤ MaxInt64)
    (habs : ctx.store (k.GetHistoricalInfoKey ctx.BlockHeight) = none) :
    TrackHistoricalInfo k ctx = some ctx := by
  have h := track_of_absent k ctx (by rw [hz]; decide)
    (by rw [hz]; simp only [MinInt64]; omega) hhi
    (Or.inr (by rw [hz]; simpa using habs))
  rw [if_pos hz] at h
  exact h

omit [Inhabited H] in
/-- Deleting keeps the stored entries decodable. -/
theorem decodes_delete (k : Keeper H V) (store : KVStore) (key : Bytes)
    (hdec : Decodes k store) : Decodes k (store.Delete key) := by
  intro h w hw
  have hw2 : (if k.GetHistoricalInfoKey h = key then none
      else store (k.GetHistoricalInfoKey h)) = some w := hw
  by_cases hc : k.GetHistoricalInfoKey h = key
  · rw [if_pos hc] at hw2; simp at hw2
  · rw [if_neg hc] at hw2; exact hdec _ _ hw2

omit [Inhabited H] in
/-- Writing an encoded snapshot keeps the stored entries decodable. -/
theorem decodes_set (k : Keeper H V) (hrt : RoundTrip k) (store : KVStore) (key : Bytes)
    (hi : HistoricalInfo H V) (hdec : Decodes k store) :
    Decodes k (store.Set key (k.MustMarshalHistoricalInfo hi)) := by
  intro h w hw
  have hw2 : (if k.GetHistoricalInfoKey h = key then some (k.MustMarshalHistoricalInfo hi)
      else store (k.GetHistoricalInfoKey h)) = some w := hw
  by_cases hc : k.GetHistoricalInfoKey h = key
  · rw [if_pos hc] at hw2
    simp only [Option.some.injEq] at hw2
    exact ⟨hi, hw2 ▸ hrt hi⟩
  · rw [if_neg hc] at hw2; exact hdec _ _ hw2

/-- `TrackHistoricalInfo` keeps the stored entries decodable. -/
theorem track_decodes (k : Keeper H V) (hrt : RoundTrip k) (ctx ctx2 : Context H)
    (hdec : Decodes k ctx.store) (h : TrackHistoricalInfo k ctx = some ctx2) :
    Decodes k ctx2.store := by
  obtain ⟨ctx1, hp, h2⟩ := (track_unfold k ctx ctx2).1 h
  have h1 : Decodes k ctx1.store :=
    pruneLoop_preserves k (fun c => Decodes k c.store)
      (fun c x hc => decodes_delete k c.store _ hc) _ ctx ctx1 hp hdec
  by_cases hz : ctx.HistoricalEntries = 0
  · rw [if_pos hz] at h2; rw [h2]; exact h1
  · rw [if_neg hz] at h2; rw [h2]
    exact decodes_set k hrt ctx1.store _ _ h1

/-- One call on a store that holds exactly the heights `lo .. BlockHeight - 1`,
with a window of at least `1`: afterwards the store holds exactly the heights
from `max lo (BlockHeight - HistoricalEntries + 1)` to `BlockHeight`. -/
theorem track_block (k : Keeper H V) (hinj : Function.Injective k.GetHistoricalInfoKey)
    (hrt : RoundTrip k) (ctx : Context H) (lo : Int)
    (hw1 : 1 ≤ ctx.HistoricalEntries) (hw : (ctx.HistoricalEntries : Int) ≤ MaxInt64)
    (hhi : ctx.BlockHeight ≤ MaxInt64) (hlo0 : 0 ≤ lo) (hloc : lo ≤ ctx.BlockHeight)
    (hdec : Decodes k ctx.store)
    (hblock : ∀ x : Int, hasEntry k ctx.store x = true ↔ lo ≤ x ∧ x < ctx.BlockHeight) :
    ∃ ctx2, TrackHistoricalInfo k ctx = some ctx2 ∧ Decodes k ctx2.store ∧
      ∀ x : Int, hasEntry k ctx2.store x = true ↔
        max lo (ctx.BlockHeight - (ctx.HistoricalEntries : Int) + 1) ≤ x ∧
          x ≤ ctx.BlockHeight := by
  obtain ⟨ctx2, h2⟩ := track_total k ctx hdec
  have hlo : MinInt64 ≤ ctx.BlockHeight - (ctx.HistoricalEntries : Int) := by
    simp only [MinInt64, MaxInt64] at *; omega
  obtain ⟨ctx1, m, hm, hall, hstop, hdel, _, _, _, _, heq⟩ :=
    track_spec k hinj ctx ctx2 hw hlo hhi h2
  rw [if_neg (by omega)] at heq
  refine ⟨ctx2, h2, track_decodes k hrt ctx ctx2 hdec h2, ?_⟩
  intro x
  have hx2 : ctx2.store (k.GetHistoricalInfoKey x)
      = if k.GetHistoricalInfoKey x = k.GetHistoricalInfoKey ctx.BlockHeight
        then some (k.MustMarshalHistoricalInfo
          (k.NewHistoricalInfo ctx.BlockHeader (k.GetLastValidators ctx1)))
        else ctx1.store (k.GetHistoricalInfoKey x) := by
    rw [heq]; rfl
  have hstop2 : m = 0 ∨ ¬ (lo ≤ (m : Int) - 1 ∧ (m : Int) - 1 < ctx.BlockHeight) := by
    rcases hstop with h0 | hs
    · exact Or.inl h0
    · right
      intro hc
      have := (hblock _).2 hc
      rw [hs] at this
      exact Bool.noConfusion this
  have hall2 : ∀ y : Int, (m : Int) ≤ y →
      y ≤ ctx.BlockHeight - (ctx.HistoricalEntries : Int) → lo ≤ y :=
    fun y h1 h2 => ((hblock y).1 (hall y h1 h2)).1
  have hm_at := hall2 (m : Int) (le_refl _)
  have hblk := hblock x
  rw [hasEntry_eq_true_iff] at hblk ⊢
  rw [hx2]
  by_cases hxc : x = ctx.BlockHeight
  · subst hxc
    rw [if_pos rfl]
    constructor
    · intro _; omega
    · intro _; exact ⟨_, rfl⟩
  · rw [if_neg (fun hc => hxc (hinj hc)), hdel x]
    by_cases hc : (m : Int) ≤ x ∧ x ≤ ctx.BlockHeight - (ctx.HistoricalEntries : Int)
    · rw [if_pos hc]
      constructor
      · rintro ⟨v, hv⟩; exact Option.noConfusion hv
      · intro hx; omega
    · rw [if_neg hc, hblk]
      constructor
      · intro hx
        refine ⟨?_, by omega⟩
        have hall3 := hall2 x
        omega
      · intro hx; omega

/-- Blocks tracked in turn with one window `w`, from a store that holds exactly
the heights `lo .. h0 - 1` and no more than `w` of them: after `n` blocks the
store holds exactly the heights from `max lo (h0 + n - w)` to `h0 + n - 1`. -/
theorem trackBlocks_const (k : Keeper H V) (hinj : Function.Injective k.GetHistoricalInfoKey)
    (hrt : RoundTrip k) (hdr : Int → H) (w : Nat) (hw : (w : Int) ≤ MaxInt64) :
    ∀ (n : Nat) (h0 lo : Int) (store : KVStore), 0 ≤ lo → lo ≤ h0 → h0 - (w : Int) ≤ lo →
      h0 + (n : Int) - 1 ≤ MaxInt64 → Decodes k store →
      (∀ x : Int, hasEntry k store x = true ↔ lo ≤ x ∧ x < h0) →
      ∃ store1, trackBlocks k hdr store h0 (List.replicate n w) = some store1 ∧
        Decodes k store1 ∧
        ∀ x : Int, hasEntry k store1 x = true ↔
          max lo (h0 + (n : Int) - (w : Int)) ≤ x ∧ x < h0 + (n : Int) := by
  intro n
  induction n with
  | zero =>
    intro h0 lo store _ _ h3 _ hdec hblock
    refine ⟨store, rfl, hdec, ?_⟩
    intro x
    rw [hblock x]
    simp only [Nat.cast_zero, add_zero]
    omega
  | succ n ih =>
    intro h0 lo store h1 h2 h3 h4 hdec hblock
    simp only [List.replicate_succ, trackBlocks]
    have h4a : h0 ≤ MaxInt64 := by push_cast at h4; omega
    by_cases hz : w = 0
    · subst hz
      have habs : store (k.GetHistoricalInfoKey (h0 - ((0 : Nat) : Int))) = none := by
        rw [← hasEntry_eq_false_iff]
        have := hblock (h0 - ((0 : Nat) : Int))
        cases hb : hasEntry k store (h0 - ((0 : Nat) : Int)) with
        | false => rfl
        | true => rw [hb] at this; have := this.1 rfl; omega
      rw [track_of_absent k ⟨h0, hdr h0, 0, store⟩ hw
        (by simp only [MinInt64]; push_cast; omega) h4a (Or.inr habs)]
      simp only [if_true]
      obtain ⟨store1, hs1, hd1, hb1⟩ := ih (h0 + 1) (h0 + 1) store (by omega) (le_refl _)
        (by push_cast; omega) (by push_cast at h4 ⊢; omega) hdec
        (by intro x; rw [hblock x]; push_cast at h3; omega)
      refine ⟨store1, hs1, hd1, ?_⟩
      intro x
      rw [hb1 x]
      push_cast at h3 ⊢
      omega
    · obtain ⟨ctx2, ht, hd2, hb2⟩ := track_block k hinj hrt ⟨h0, hdr h0, w, store⟩ lo
        (by show 1 ≤ w; omega) hw h4a h1 h2 hdec hblock
      rw [ht]
      simp only
      have hb2a : ∀ x : Int, hasEntry k ctx2.store x = true ↔
          max lo (h0 - (w : Int) + 1) ≤ x ∧ x ≤ h0 := hb2
      obtain ⟨store1, hs1, hd1, hb1⟩ := ih (h0 + 1) (max lo (h0 - (w : Int) + 1)) ctx2.store
        (by omega) (by omega) (by omega) (by push_cast at h4 ⊢; omega) hd2
        (by intro x; rw [hb2a x]; omega)
      refine ⟨store1, hs1, hd1, ?_⟩
      intro x
      rw [hb1 x]
      push_cast
      omega

/-- The pruning loop only removes: what the store holds afterwards it held
before, with the same value. -/
theorem pruneLoop_submap (k : Keeper H V) (n : Nat) (ctx ctx1 : Context H)
    (h : pruneLoop k ctx n = some ctx1) :
    ∀ (b v : Bytes), ctx1.store b = some v → ctx.store b = some v := by
  refine pruneLoop_preserves k (fun c => ∀ (b v : Bytes), c.store b = some v → ctx.store b = some v)
    ?_ n ctx ctx1 h (fun _ _ hv => hv)
  intro c x hc b v hv
  have hv2 : (if b = k.GetHistoricalInfoKey x then none else c.store b) = some v := hv
  by_cases hb : b = k.GetHistoricalInfoKey x
  · rw [if_pos hb] at hv2; exact Option.noConfusion hv2
  · rw [if_neg hb] at hv2; exact hc b v hv2

/-- After the pruning loop the height it started at holds no value. -/
theorem pruneLoop_start_absent (k : Keeper H V) (n : Nat) (ctx ctx1 : Context H)
    (h : pruneLoop k ctx (n + 1) = some ctx1) :
    ctx1.store (k.GetHistoricalInfoKey (n : Int)) = none := by
  unfold pruneLoop at h
  cases hv : ctx.store (k.GetHistoricalInfoKey (n : Int)) with
  | none =>
    rw [GetHistoricalInfo_absent k ctx _ hv] at h
    simp only [Option.some.injEq] at h
    rw [← h]; exact hv
  | some v =>
    cases hd : k.MustUnmarshalHistoricalInfo v with
    | none => rw [GetHistoricalInfo_corrupt k ctx _ v hv hd] at h; simp at h
    | some hi =>
      rw [GetHistoricalInfo_present k ctx _ v hi hv hd] at h
      simp only at h
      refine pruneLoop_preserves k
        (fun c => c.store (k.GetHistoricalInfoKey (n : Int)) = none) ?_ n _ ctx1 h ?_
      · intro c x hc
        show (if k.GetHistoricalInfoKey (n : Int) = k.GetHistoricalInfoKey x then none
          else c.store (k.GetHistoricalInfoKey (n : Int))) = none
        by_cases hb : k.GetHistoricalInfoKey (n : Int) = k.GetHistoricalInfoKey x
        · rw [if_pos hb]
        · rw [if_neg hb]; exact hc
      · show (if k.GetHistoricalInfoKey (n : Int) = k.GetHistoricalInfoKey (n : Int) then none
          else ctx.store (k.GetHistoricalInfoKey (n : Int))) = none
        rw [if_pos rfl]

/-- The pruning loop leaves the block height, the block header and, when no
deletion of a historical entry changes it, the last validator set as they were. -/
theorem pruneLoop_fields (k : Keeper H V)
    (hlv : ∀ (c : Context H) (h : Int),
      k.GetLastValidators (DeleteHistoricalInfo k c h) = k.GetLastValidators c)
    (n : Nat) (ctx ctx1 : Context H) (h : pruneLoop k ctx n = some ctx1) :
    ctx1.BlockHeight = ctx.BlockHeight ∧ ctx1.BlockHeader = ctx.BlockHeader ∧
      k.GetLastValidators ctx1 = k.GetLastValidators ctx := by
  refine pruneLoop_preserves k (fun c => c.BlockHeight = ctx.BlockHeight ∧
    c.BlockHeader = ctx.BlockHeader ∧ k.GetLastValidators c = k.GetLastValidators ctx)
    ?_ n ctx ctx1 h ⟨rfl, rfl, rfl⟩
  intro c x hc
  exact ⟨hc.1, hc.2.1, (hlv c x).trans hc.2.2⟩

omit [Inhabited H] in
/-- The store after the write that ends `TrackHistoricalInfo`. -/
theorem store_after_write (k : Keeper H V) (ctx ctx1 ctx2 : Context H) (c : Int)
    (hi : HistoricalInfo H V)
    (heq : ctx2 = if ctx.HistoricalEntries = 0 then ctx1 else SetHistoricalInfo k ctx1 c hi)
    (b : Bytes) :
    ctx2.store b = if ctx.HistoricalEntries = 0 then ctx1.store b
      else if b = k.GetHistoricalInfoKey c then some (k.MustMarshalHistoricalInfo hi)
      else ctx1.store b := by
  by_cases hz : ctx.HistoricalEntries = 0
  · rw [if_pos hz] at heq; rw [if_pos hz, heq]
  · rw [if_neg hz] at heq; rw [if_neg hz, heq]; rfl

theorem GetHistoricalInfo_of_hasEntry_false (k : Keeper H V) (ctx : Context H) (h : Int)
    (hv : hasEntry k ctx.store h = false) :
    GetHistoricalInfo k ctx h = some (⟨default, []⟩, false) :=
  GetHistoricalInfo_absent k ctx h ((hasEntry_eq_false_iff k ctx.store h).1 hv)

theorem GetHistoricalInfo_of_hasEntry_true (k : Keeper H V) (ctx : Context H) (h : Int)
    (hdec : Decodes k ctx.store) (hv : hasEntry k ctx.store h = true) :
    ∃ hi, GetHistoricalInfo k ctx h = some (hi, true) := by
  obtain ⟨v, hv1⟩ := (hasEntry_eq_true_iff k ctx.store h).1 hv
  obtain ⟨hi, hd⟩ := hdec h v hv1
  exact ⟨hi, GetHistoricalInfo_present k ctx h v hi hv1 hd⟩

/-- The lookup at a height reads the store only at the key of that height. -/
theorem GetHistoricalInfo_congr (k : Keeper H V) (ctx ctx2 : Context H) (h : Int)
    (heq : ctx2.store (k.GetHistoricalInfoKey h) = ctx.store (k.GetHistoricalInfoKey h)) :
    GetHistoricalInfo k ctx2 h = GetHistoricalInfo k ctx h := by
  simp only [GetHistoricalInfo, KVStore.Get, heq]

omit [Inhabited H] in
/-- Writing the same snapshot at the same height a second time changes nothing. -/
theorem SetHistoricalInfo_twice (k : Keeper H V) (ctx : Context H) (h : Int)
    (hi : HistoricalInfo H V) :
    SetHistoricalInfo k (SetHistoricalInfo k ctx h hi) h hi = SetHistoricalInfo k ctx h hi := by
  have hs : ((ctx.store.Set (k.GetHistoricalInfoKey h) (k.MustMarshalHistoricalInfo hi)).Set
      (k.GetHistoricalInfoKey h) (k.MustMarshalHistoricalInfo hi))
      = ctx.store.Set (k.GetHistoricalInfoKey h) (k.MustMarshalHistoricalInfo hi) := by
    funext b
    show (if b = k.GetHistoricalInfoKey h then some (k.MustMarshalHistoricalInfo hi)
      else (if b = k.GetHistoricalInfoKey h then some (k.MustMarshalHistoricalInfo hi)
        else ctx.store b))
      = (if b = k.GetHistoricalInfoKey h then some (k.MustMarshalHistoricalInfo hi)
        else ctx.store b)
    by_cases hb : b = k.GetHistoricalInfoKey h
    · rw [if_pos hb, if_pos hb]
    · rw [if_neg hb, if_neg hb]
  show ({ (SetHistoricalInfo k ctx h hi) with
    store := (ctx.store.Set (k.GetHistoricalInfoKey h) (k.MustMarshalHistoricalInfo hi)).Set
      (k.GetHistoricalInfoKey h) (k.MustMarshalHistoricalInfo hi) } : Context H)
    = SetHistoricalInfo k ctx h hi
  rw [hs]
  rfl

/-- The loop on the `int64` variable, given fuel for `i + 1` iterations, does
not run out of fuel, ends as `pruneLoop` does, and makes at most `i + 1`
lookups and no more deletions than lookups. -/
theorem pruneLoopFuel_spec (k : Keeper H V) :
    ∀ (fuel : Nat) (ctx : Context H) (i : Int), (i + 1).toNat ≤ fuel →
      (pruneLoopFuel k fuel ctx i).result = LoopEnd.ofOption (pruneLoop k ctx (i + 1).toNat) ∧
      (pruneLoopFuel k fuel ctx i).deletions ≤ (pruneLoopFuel k fuel ctx i).lookups ∧
      (pruneLoopFuel k fuel ctx i).lookups ≤ (i + 1).toNat := by
  intro fuel
  induction fuel with
  | zero =>
    intro ctx i hi
    have hneg : ¬ i ≥ 0 := by omega
    have hn : (i + 1).toNat = 0 := by omega
    rw [pruneLoopFuel, if_neg hneg, hn]
    exact ⟨rfl, le_refl _, le_refl _⟩
  | succ fuel ih =>
    intro ctx i hi
    rw [pruneLoopFuel]
    by_cases hpos : i ≥ 0
    · rw [if_pos hpos]
      have hn : (i + 1).toNat = i.toNat + 1 := by omega
      have hcast : ((i.toNat : Nat) : Int) = i := by omega
      have hprev : (i - 1 + 1).toNat = i.toNat := by omega
      rw [hn]
      unfold pruneLoop
      rw [hcast]
      cases hg : GetHistoricalInfo k ctx i with
      | none =>
        refine ⟨rfl, Nat.zero_le _, ?_⟩
        show 1 ≤ i.toNat + 1
        omega
      | some r =>
        obtain ⟨hi2, found⟩ := r
        cases found with
        | false =>
          refine ⟨rfl, Nat.zero_le _, ?_⟩
          show 1 ≤ i.toNat + 1
          omega
        | true =>
          obtain ⟨h1, h2, h3⟩ := ih (DeleteHistoricalInfo k ctx i) (i - 1) (by omega)
          rw [hprev] at h1 h3
          exact ⟨h1, by simpa using h2, by simpa using h3⟩
    · rw [if_neg hpos]
      have hn : (i + 1).toNat = 0 := by omega
      rw [hn]
      exact ⟨rfl, le_refl _, le_refl _⟩

end Lemmas

/-! ## Facts about the concrete keeper -/

theorem demoKey_injective : Function.Injective demoKey := by
  intro a b h
  simp only [demoKey, List.cons.injEq, true_and] at h
  obtain ⟨h1, h2⟩ := h
  have h3 := congrArg List.length h2
  simp only [List.length_replicate] at h3
  by_cases ha : a < 0 <;> by_cases hb : b < 0 <;> simp [ha, hb] at h1 <;> omega

theorem demoKeeper_roundTrip : RoundTrip demoKeeper := by
  intro hi
  obtain ⟨hd, vs⟩ := hi
  simp [demoKeeper, demoMarshal, demoUnmarshal]
  exact (List.eq_replicate_iff.2 ⟨rfl, fun _ _ => rfl⟩).symm

theorem demoStore_hasEntry (heights : List Int) (x : Int) :
    hasEntry demoKeeper (demoStore heights) x = true ↔ x ∈ heights := by
  simp only [hasEntry, KVStore.Get, demoStore, demoKeeper]
  constructor
  · intro h
    split at h
    · rename_i hany
      obtain ⟨y, hy, hxy⟩ := List.any_eq_true.1 hany
      have := demoKey_injective (beq_iff_eq.1 hxy)
      exact this ▸ hy
    · exact Bool.noConfusion h
  · intro hx
    have hany : (heights.any fun h => demoKey x == demoKey h) = true :=
      List.any_eq_true.2 ⟨x, hx, beq_iff_eq.2 rfl⟩
    rw [if_pos hany]
    rfl

theorem demoStore_decodes (heights : List Int) : Decodes demoKeeper (demoStore heights) := by
  intro h v hv
  unfold demoStore at hv
  split at hv
  · simp only [Option.some.injEq] at hv
    subst hv
    exact ⟨_, rfl⟩
  · simp at hv

/-! ## Retention under a constant window -/

/-- C1: from a store with no historical entry, one call of `TrackHistoricalInfo`
at each height `0, 1, ..., N` in turn, all with the window `w`, returns, and the
store then holds an entry at height `h` exactly when
`max 0 (N - w + 1) ≤ h ≤ N`. -/
theorem track_retention_constant_window {H V : Type} [Inhabited H] (k : Keeper H V)
    (hinj : Function.Injective k.GetHistoricalInfoKey) (hrt : RoundTrip k)
    (hdr : Int → H) (store : KVStore) (hempty : ∀ x : Int, hasEntry k store x = false)
    (w N : Nat) (hw : (w : Int) ≤ MaxInt64) (hN : (N : Int) ≤ MaxInt64) :
    ∃ store1, trackBlocks k hdr store 0 (List.replicate (N + 1) w) = some store1 ∧
      ∀ h : Int, hasEntry k store1 h = true ↔
        max 0 ((N : Int) - (w : Int) + 1) ≤ h ∧ h ≤ (N : Int) := by
  have hdec : Decodes k store := by
    intro h v hv
    have := (hasEntry_eq_false_iff k store h).1 (hempty h)
    rw [this] at hv
    exact Option.noConfusion hv
  obtain ⟨store1, hs, _, hb⟩ := trackBlocks_const k hinj hrt hdr w hw (N + 1) 0 0 store
    (le_refl _) (le_refl _) (by omega) (by push_cast; omega) hdec
    (by intro x; rw [hempty x]; constructor
        · intro h; exact Bool.noConfusion h
        · intro h; omega)
  refine ⟨store1, hs, ?_⟩
  intro h
  rw [hb h]
  push_cast
  omega

/-- The statement of C1 at the concrete keeper, window `2` and `N = 4`. -/
theorem track_retention_constant_window_witness :
    Function.Injective demoKeeper.GetHistoricalInfoKey ∧ RoundTrip demoKeeper ∧
    ∃ store1, trackBlocks demoKeeper (fun _ => ()) KVStore.empty 0
        (List.replicate (4 + 1) 2) = some store1 ∧
      ∀ h : Int, hasEntry demoKeeper store1 h = true ↔
        max 0 (((4 : Nat) : Int) - ((2 : Nat) : Int) + 1) ≤ h ∧ h ≤ ((4 : Nat) : Int) :=
  ⟨demoKey_injective, demoKeeper_roundTrip,
    track_retention_constant_window demoKeeper demoKey_injective demoKeeper_roundTrip
      (fun _ => ()) KVStore.empty (fun _ => rfl) 2 4 (by decide) (by decide)⟩

/-! ## The boundary of the pruning scan -/

/-- C2, as the specification states it, fails: at height `5` with window `3` the
cutoff is `2`, and the entry stored at height `2` before the call is not stored
after it. -/
theorem track_scan_start_counterexample :
    hasEntry demoKeeper (demoStore [2, 3, 4]) 2 = true ∧
    (TrackHistoricalInfo demoKeeper ⟨5, (), 3, demoStore [2, 3, 4]⟩).map
      (fun c => hasEntry demoKeeper c.store 2) = some false := by
  decide

/-- C2, amended: with `cutoff = BlockHeight - HistoricalEntries` (no `int64`
overflow), the pruning scan of `TrackHistoricalInfo` begins at the height
`cutoff` itself.  The call returns when the stored entries decode, and whenever
it returns: no entry is stored at `cutoff` afterwards (when `cutoff ≥ 0`), an
entry stored at a height above `cutoff` before the call is still stored after
it, and a key that the call removed is the key of a height `h` with
`0 ≤ h ≤ cutoff`. -/
theorem track_scan_start {H V : Type} [Inhabited H] (k : Keeper H V)
    (hinj : Function.Injective k.GetHistoricalInfoKey) (ctx : Context H)
    (hw : (ctx.HistoricalEntries : Int) ≤ MaxInt64)
    (hlo : MinInt64 ≤ ctx.BlockHeight - (ctx.HistoricalEntries : Int))
    (hhi : ctx.BlockHeight ≤ MaxInt64) :
    (Decodes k ctx.store → ∃ ctx2, TrackHistoricalInfo k ctx = some ctx2) ∧
    ∀ ctx2, TrackHistoricalInfo k ctx = some ctx2 →
      (0 ≤ ctx.BlockHeight - (ctx.HistoricalEntries : Int) →
        hasEntry k ctx2.store (ctx.BlockHeight - (ctx.HistoricalEntries : Int)) = false) ∧
      (∀ h : Int, ctx.BlockHeight - (ctx.HistoricalEntries : Int) < h →
        hasEntry k ctx.store h = true → hasEntry k ctx2.store h = true) ∧
      (∀ b : Bytes, ctx.store b ≠ none → ctx2.store b = none →
        ∃ h : Int, 0 ≤ h ∧ h ≤ ctx.BlockHeight - (ctx.HistoricalEntries : Int) ∧
          b = k.GetHistoricalInfoKey h) := by
  refine ⟨track_total k ctx, ?_⟩
  intro ctx2 h2
  obtain ⟨ctx1, m, hm, hall, hstop, hdel, hframe, _, _, _, heq⟩ :=
    track_spec k hinj ctx ctx2 hw hlo hhi h2
  have hst := store_after_write k ctx ctx1 ctx2 _ _ heq
  refine ⟨?_, ?_, ?_⟩
  · intro hc0
    rw [hasEntry_eq_false_iff, hst]
    have h1 : ctx1.store (k.GetHistoricalInfoKey
        (ctx.BlockHeight - (ctx.HistoricalEntries : Int))) = none := by
      rw [hdel]
      by_cases hc : (m : Int) ≤ ctx.BlockHeight - (ctx.HistoricalEntries : Int)
      · rw [if_pos ⟨hc, le_refl _⟩]
      · rw [if_neg (fun h => hc h.1)]
        rcases hstop with h0 | hs
        · omega
        · rw [hasEntry_eq_false_iff] at hs
          have : (m : Int) - 1 = ctx.BlockHeight - (ctx.HistoricalEntries : Int) := by omega
          rw [← this]; exact hs
    by_cases hz : ctx.HistoricalEntries = 0
    · rw [if_pos hz]; exact h1
    · rw [if_neg hz, if_neg, h1]
      intro hk
      have := hinj hk
      omega
  · intro h hh hp
    rw [hasEntry_eq_true_iff] at hp ⊢
    rw [hst]
    have h1 : ctx1.store (k.GetHistoricalInfoKey h) = ctx.store (k.GetHistoricalInfoKey h) := by
      rw [hdel, if_neg]
      intro hc; omega
    by_cases hz : ctx.HistoricalEntries = 0
    · rw [if_pos hz, h1]; exact hp
    · rw [if_neg hz]
      by_cases hk : k.GetHistoricalInfoKey h = k.GetHistoricalInfoKey ctx.BlockHeight
      · rw [if_pos hk]; exact ⟨_, rfl⟩
      · rw [if_neg hk, h1]; exact hp
  · intro b hb hb2
    rw [hst] at hb2
    have h1 : ctx1.store b = none := by
      by_cases hz : ctx.HistoricalEntries = 0
      · rw [if_pos hz] at hb2; exact hb2
      · rw [if_neg hz] at hb2
        by_cases hk : b = k.GetHistoricalInfoKey ctx.BlockHeight
        · rw [if_pos hk] at hb2; exact Option.noConfusion hb2
        · rw [if_neg hk] at hb2; exact hb2
    by_cases hx : ∃ x : Int, b = k.GetHistoricalInfoKey x
    · obtain ⟨x, rfl⟩ := hx
      rw [hdel] at h1
      by_cases hc : (m : Int) ≤ x ∧ x ≤ ctx.BlockHeight - (ctx.HistoricalEntries : Int)
      · exact ⟨x, by omega, hc.2, rfl⟩
      · rw [if_neg hc] at h1; exact absurd h1 hb
    · rw [hframe b (fun x hbx => hx ⟨x, hbx⟩)] at h1
      exact absurd h1 hb

/-- The amended C2 at the concrete keeper: height `5`, window `3`, a store with
the heights `2`, `3` and `4`. -/
theorem track_scan_start_witness :
    Function.Injective demoKeeper.GetHistoricalInfoKey ∧
    Decodes demoKeeper (demoStore [2, 3, 4]) ∧
    (∃ ctx2, TrackHistoricalInfo demoKeeper ⟨5, (), 3, demoStore [2, 3, 4]⟩ = some ctx2) ∧
    ∀ ctx2, TrackHistoricalInfo demoKeeper ⟨5, (), 3, demoStore [2, 3, 4]⟩ = some ctx2 →
      hasEntry demoKeeper ctx2.store 2 = false ∧
      hasEntry demoKeeper ctx2.store 3 = true ∧
      hasEntry demoKeeper ctx2.store 4 = true :=
  have h := track_scan_start demoKeeper demoKey_injective
    (⟨5, (), 3, demoStore [2, 3, 4]⟩ : Context Unit) (by decide) (by decide) (by decide)
  ⟨demoKey_injective, demoStore_decodes _, h.1 (demoStore_decodes _),
    fun ctx2 h2 => ⟨(h.2 ctx2 h2).1 (by decide), (h.2 ctx2 h2).2.1 3 (by decide) (by decide),
      (h.2 ctx2 h2).2.1 4 (by decide) (by decide)⟩⟩

/-! ## A window that decreases -/

/-- One call with a window `w1` of at least `1` that is smaller than the window
`w` the store was filled with: from exactly the heights `max 0 (N - w + 1) .. N`
the call at height `N + 1` leaves exactly the heights
`max 0 (N - w1 + 2) .. N + 1`. -/
theorem track_window_decrease {H V : Type} [Inhabited H] (k : Keeper H V)
    (hinj : Function.Injective k.GetHistoricalInfoKey) (hrt : RoundTrip k)
    (ctx : Context H) (w N : Nat) (hw1 : 1 ≤ ctx.HistoricalEntries)
    (hlt : ctx.HistoricalEntries < w) (hc : ctx.BlockHeight = (N : Int) + 1)
    (hwm : (ctx.HistoricalEntries : Int) ≤ MaxInt64)
    (hhi : ctx.BlockHeight ≤ MaxInt64) (hdec : Decodes k ctx.store)
    (hblock : ∀ x : Int, hasEntry k ctx.store x = true ↔
      max 0 ((N : Int) - (w : Int) + 1) ≤ x ∧ x ≤ (N : Int)) :
    ∃ ctx2, TrackHistoricalInfo k ctx = some ctx2 ∧
      ∀ x : Int, hasEntry k ctx2.store x = true ↔
        max 0 ((N : Int) - (ctx.HistoricalEntries : Int) + 2) ≤ x ∧ x ≤ (N : Int) + 1 := by
  obtain ⟨ctx2, h2, _, hb⟩ := track_block k hinj hrt ctx (max 0 ((N : Int) - (w : Int) + 1))
    hw1 hwm hhi (by omega) (by omega) hdec (by intro x; rw [hblock x]; omega)
  refine ⟨ctx2, h2, ?_⟩
  intro x
  rw [hb x]
  omega

/-- C3 fails on the code when the new window is `0`: after the heights `0 .. 4`
are tracked with window `5`, the call at height `5` with window `0` leaves all
five entries in the store. -/
theorem track_window_decrease_to_zero_keeps_entries :
    (trackBlocks demoKeeper (fun _ => ()) KVStore.empty 0 [5, 5, 5, 5, 5, 0]).map
      (fun s => [0, 1, 2, 3, 4, 5].map (fun h => hasEntry demoKeeper s h))
      = some [true, true, true, true, true, false] := by
  decide

/-- C4, as the specification states it, fails: after heights `10 .. 14` are
tracked with window `3` from the empty store, the lookup at height `11`
returns `found = false`. -/
theorem track_scenario_counterexample :
    (trackBlocks demoKeeper (fun _ => ()) KVStore.empty 10 [3, 3, 3, 3, 3]).bind
      (fun s => GetHistoricalInfo demoKeeper ⟨14, (), 3, s⟩ 11)
      = some (⟨(), []⟩, false) := by
  decide

/-- C4, amended: from a store with no historical entry, tracking the heights
`10, 11, 12, 13, 14` in turn with window `3` returns, and afterwards
`GetHistoricalInfo` returns `found = true` for the heights `12`, `13` and `14`
and `found = false` for the heights `10` and `11`. -/
theorem track_scenario {H V : Type} [Inhabited H] (k : Keeper H V)
    (hinj : Function.Injective k.GetHistoricalInfoKey) (hrt : RoundTrip k)
    (hdr : Int → H) (store : KVStore) (hempty : ∀ x : Int, hasEntry k store x = false) :
    ∃ store1, trackBlocks k hdr store 10 [3, 3, 3, 3, 3] = some store1 ∧
      (∀ h : Int, h = 12 ∨ h = 13 ∨ h = 14 →
        ∃ hi, GetHistoricalInfo k ⟨14, hdr 14, 3, store1⟩ h = some (hi, true)) ∧
      (∀ h : Int, h = 10 ∨ h = 11 →
        GetHistoricalInfo k ⟨14, hdr 14, 3, store1⟩ h = some (⟨default, []⟩, false)) := by
  have hdec : Decodes k store := by
    intro h v hv
    have := (hasEntry_eq_false_iff k store h).1 (hempty h)
    rw [this] at hv
    exact Option.noConfusion hv
  obtain ⟨store1, hs, hd1, hb⟩ := trackBlocks_const k hinj hrt hdr 3 (by decide) 5 10 10 store
    (by decide) (le_refl _) (by decide) (by decide) hdec
    (by intro x; rw [hempty x]; constructor
        · intro h; exact Bool.noConfusion h
        · intro h; omega)
  refine ⟨store1, hs, ?_, ?_⟩
  · intro h hh
    apply GetHistoricalInfo_of_hasEntry_true k ⟨14, hdr 14, 3, store1⟩ h hd1
    apply (hb h).2
    push_cast
    omega
  · intro h hh
    apply GetHistoricalInfo_of_hasEntry_false k ⟨14, hdr 14, 3, store1⟩ h
    cases hx : hasEntry k store1 h with
    | false => rfl
    | true =>
      have := (hb h).1 hx
      push_cast at this
      omega

/-- The amended C4 at the concrete keeper and the empty store. -/
theorem track_scenario_witness :
    Function.Injective demoKeeper.GetHistoricalInfoKey ∧ RoundTrip demoKeeper ∧
    ∃ store1, trackBlocks demoKeeper (fun _ => ()) KVStore.empty 10 [3, 3, 3, 3, 3]
        = some store1 ∧
      (∀ h : Int, h = 12 ∨ h = 13 ∨ h = 14 →
        ∃ hi, GetHistoricalInfo demoKeeper ⟨14, (), 3, store1⟩ h = some (hi, true)) ∧
      (∀ h : Int, h = 10 ∨ h = 11 →
        GetHistoricalInfo demoKeeper ⟨14, (), 3, store1⟩ h = some (⟨default, []⟩, false)) :=
  ⟨demoKey_injective, demoKeeper_roundTrip,
    track_scenario demoKeeper demoKey_injective demoKeeper_roundTrip
      (fun _ => ()) KVStore.empty (fun _ => rfl)⟩

/-! ## The window zero -/

/-- C5: at a height `c ≥ 0` with window `0`, `TrackHistoricalInfo` returns when
the stored entries decode, and whenever it returns it has written nothing: the
lookup at `c` returns the zero value and `found = false`, and every key the
store holds afterwards it held before with the same value. -/
theorem track_zero_window_no_write {H V : Type} [Inhabited H] (k : Keeper H V)
    (ctx : Context H) (hz : ctx.HistoricalEntries = 0) (h0 : 0 ≤ ctx.BlockHeight)
    (hhi : ctx.BlockHeight ≤ MaxInt64) :
    (Decodes k ctx.store → ∃ ctx2, TrackHistoricalInfo k ctx = some ctx2) ∧
    ∀ ctx2, TrackHistoricalInfo k ctx = some ctx2 →
      GetHistoricalInfo k ctx2 ctx.BlockHeight = some (⟨default, []⟩, false) ∧
      ∀ (b v : Bytes), ctx2.store b = some v → ctx.store b = some v := by
  refine ⟨track_total k ctx, ?_⟩
  intro ctx2 h2
  obtain ⟨ctx1, hp, heq⟩ := (track_unfold k ctx ctx2).1 h2
  rw [if_pos hz] at heq
  subst heq
  have hstart : wrapInt64 (ctx.BlockHeight - wrapInt64 (ctx.HistoricalEntries : Int))
      = ctx.BlockHeight := by
    rw [start_eq _ _ (by rw [hz]; decide) (by rw [hz]; simp only [MinInt64]; omega) hhi, hz]
    simp
  rw [hstart] at hp
  have hn : (ctx.BlockHeight + 1).toNat = ctx.BlockHeight.toNat + 1 := by omega
  have hcast : ((ctx.BlockHeight.toNat : Nat) : Int) = ctx.BlockHeight := by omega
  rw [hn] at hp
  refine ⟨?_, pruneLoop_submap k _ ctx ctx2 hp⟩
  apply GetHistoricalInfo_absent
  have := pruneLoop_start_absent k _ ctx ctx2 hp
  rw [hcast] at this
  exact this

/-- C5 at the concrete keeper: height `10`, window `0`, a store with the heights
`9` and `10`. -/
theorem track_zero_window_no_write_witness :
    Decodes demoKeeper (demoStore [9, 10]) ∧
    (∃ ctx2, TrackHistoricalInfo demoKeeper ⟨10, (), 0, demoStore [9, 10]⟩ = some ctx2) ∧
    ∀ ctx2, TrackHistoricalInfo demoKeeper ⟨10, (), 0, demoStore [9, 10]⟩ = some ctx2 →
      GetHistoricalInfo demoKeeper ctx2 10 = some (⟨default, []⟩, false) ∧
      ∀ (b v : Bytes), ctx2.store b = some v → demoStore [9, 10] b = some v :=
  have h := track_zero_window_no_write demoKeeper
    (⟨10, (), 0, demoStore [9, 10]⟩ : Context Unit) rfl (by decide) (by decide)
  ⟨demoStore_decodes _, h.1 (demoStore_decodes _), h.2⟩

/-- C6 fails on the code: with entries at the heights `7 .. 9`, none at `6` and
none at `10`, the call at height `10` with window `0` prunes nothing; the
entries at `7`, `8` and `9` are still stored. -/
theorem track_zero_window_prunes_nothing :
    (TrackHistoricalInfo demoKeeper ⟨10, (), 0, demoStore [7, 8, 9]⟩).map
      (fun c => [6, 7, 8, 9, 10].map (fun h => hasEntry demoKeeper c.store h))
      = some [false, true, true, true, false] := by
  decide

/-! ## A window that increases -/

/-- C7: when the store holds exactly the heights `max 0 (N - w + 1) .. N` and
the window of the call at height `N + 1` is larger than `w`, the call returns,
deletes nothing (every key keeps its value) and the store then holds exactly
the heights `max 0 (N - w + 1) .. N + 1`. -/
theorem track_window_increase {H V : Type} [Inhabited H] (k : Keeper H V)
    (hinj : Function.Injective k.GetHistoricalInfoKey) (ctx : Context H) (w N : Nat)
    (hlt : w < ctx.HistoricalEntries) (hc : ctx.BlockHeight = (N : Int) + 1)
    (hw : (ctx.HistoricalEntries : Int) ≤ MaxInt64) (hhi : ctx.BlockHeight ≤ MaxInt64)
    (hblock : ∀ x : Int, hasEntry k ctx.store x = true ↔
      max 0 ((N : Int) - (w : Int) + 1) ≤ x ∧ x ≤ (N : Int)) :
    ∃ ctx2, TrackHistoricalInfo k ctx = some ctx2 ∧
      (∀ (b v : Bytes), ctx.store b = some v → ctx2.store b = some v) ∧
      ∀ x : Int, hasEntry k ctx2.store x = true ↔
        max 0 ((N : Int) - (w : Int) + 1) ≤ x ∧ x ≤ (N : Int) + 1 := by
  have hlo : MinInt64 ≤ ctx.BlockHeight - (ctx.HistoricalEntries : Int) := by
    simp only [MinInt64, MaxInt64] at *; omega
  have hnone : ∀ x : Int, ¬ (max 0 ((N : Int) - (w : Int) + 1) ≤ x ∧ x ≤ (N : Int)) →
      ctx.store (k.GetHistoricalInfoKey x) = none := by
    intro x hx
    rw [← hasEntry_eq_false_iff]
    cases hb : hasEntry k ctx.store x with
    | false => rfl
    | true => exact absurd ((hblock x).1 hb) hx
  have habs : ctx.BlockHeight - (ctx.HistoricalEntries : Int) < 0 ∨
      ctx.store (k.GetHistoricalInfoKey (ctx.BlockHeight - (ctx.HistoricalEntries : Int)))
        = none := Or.inr (hnone _ (by omega))
  have ht := track_of_absent k ctx hw hlo hhi habs
  rw [if_neg (by omega)] at ht
  refine ⟨_, ht, ?_, ?_⟩
  · intro b v hv
    show (if b = k.GetHistoricalInfoKey ctx.BlockHeight then _ else ctx.store b) = some v
    rw [if_neg, hv]
    intro hb
    rw [hb, hnone _ (by omega)] at hv
    exact Option.noConfusion hv
  · intro x
    rw [hasEntry_eq_true_iff]
    show (∃ v, (if k.GetHistoricalInfoKey x = k.GetHistoricalInfoKey ctx.BlockHeight
      then _ else ctx.store (k.GetHistoricalInfoKey x)) = some v) ↔ _
    by_cases hx : x = ctx.BlockHeight
    · rw [hx, if_pos rfl]
      constructor
      · intro _; omega
      · intro _; exact ⟨_, rfl⟩
    · rw [if_neg (fun hk => hx (hinj hk)), ← hasEntry_eq_true_iff, hblock x]
      omega

/-- C7 at the concrete keeper: the heights `3` and `4` (the window was `2`),
then the call at height `5` with window `4`. -/
theorem track_window_increase_witness :
    Function.Injective demoKeeper.GetHistoricalInfoKey ∧
    ∃ ctx2, TrackHistoricalInfo demoKeeper ⟨5, (), 4, demoStore [3, 4]⟩ = some ctx2 ∧
      (∀ (b v : Bytes), demoStore [3, 4] b = some v → ctx2.store b = some v) ∧
      ∀ x : Int, hasEntry demoKeeper ctx2.store x = true ↔
        max 0 (((4 : Nat) : Int) - ((2 : Nat) : Int) + 1) ≤ x ∧ x ≤ ((4 : Nat) : Int) + 1 :=
  ⟨demoKey_injective,
    track_window_increase demoKeeper demoKey_injective
      (⟨5, (), 4, demoStore [3, 4]⟩ : Context Unit) 2 4 (by decide) (by decide) (by decide)
      (by decide)
      (fun x => (demoStore_hasEntry [3, 4] x).trans (by
        simp only [List.mem_cons, List.mem_singleton, List.not_mem_nil, or_false]
        push_cast
        omega))⟩

/-! ## A gap stops the scan -/

/-- C8: when a height `m` with `0 ≤ m < BlockHeight - HistoricalEntries` holds
no entry, `TrackHistoricalInfo` returns when the stored entries decode, and
whenever it returns the key of every height below `m` has the value it had
before the call. -/
theorem track_gap_truncates {H V : Type} [Inhabited H] (k : Keeper H V)
    (hinj : Function.Injective k.GetHistoricalInfoKey) (ctx : Context H) (m : Int)
    (hm0 : 0 ≤ m) (hm : m < ctx.BlockHeight - (ctx.HistoricalEntries : Int))
    (hw : (ctx.HistoricalEntries : Int) ≤ MaxInt64) (hhi : ctx.BlockHeight ≤ MaxInt64)
    (hgap : hasEntry k ctx.store m = false) :
    (Decodes k ctx.store → ∃ ctx2, TrackHistoricalInfo k ctx = some ctx2) ∧
    ∀ ctx2, TrackHistoricalInfo k ctx = some ctx2 →
      ∀ h : Int, h < m →
        ctx2.store (k.GetHistoricalInfoKey h) = ctx.store (k.GetHistoricalInfoKey h) := by
  refine ⟨track_total k ctx, ?_⟩
  intro ctx2 h2 h hh
  have hlo : MinInt64 ≤ ctx.BlockHeight - (ctx.HistoricalEntries : Int) := by
    simp only [MinInt64]; omega
  obtain ⟨ctx1, m1, _, hall, _, hdel, _, _, _, _, heq⟩ :=
    track_spec k hinj ctx ctx2 hw hlo hhi h2
  have hst := store_after_write k ctx ctx1 ctx2 _ _ heq (k.GetHistoricalInfoKey h)
  have hm1 : m < (m1 : Int) := by
    by_contra hcon
    have := hall m (by omega) (by omega)
    rw [hgap] at this
    exact Bool.noConfusion this
  have h1 : ctx1.store (k.GetHistoricalInfoKey h) = ctx.store (k.GetHistoricalInfoKey h) := by
    rw [hdel, if_neg]
    intro hc; omega
  rw [hst]
  by_cases hz : ctx.HistoricalEntries = 0
  · rw [if_pos hz, h1]
  · rw [if_neg hz, if_neg, h1]
    intro hk
    have := hinj hk
    omega

/-- C8 at the concrete keeper: height `10`, window `3`, entries at the heights
`2, 3, 5, 6, 7` and the gap at `4`. -/
theorem track_gap_truncates_witness :
    Function.Injective demoKeeper.GetHistoricalInfoKey ∧
    hasEntry demoKeeper (demoStore [2, 3, 5, 6, 7]) 4 = false ∧
    (∃ ctx2, TrackHistoricalInfo demoKeeper ⟨10, (), 3, demoStore [2, 3, 5, 6, 7]⟩
      = some ctx2) ∧
    ∀ ctx2, TrackHistoricalInfo demoKeeper ⟨10, (), 3, demoStore [2, 3, 5, 6, 7]⟩
      = some ctx2 →
      ∀ h : Int, h < 4 →
        ctx2.store (demoKey h) = demoStore [2, 3, 5, 6, 7] (demoKey h) :=
  have h := track_gap_truncates demoKeeper demoKey_injective
    (⟨10, (), 3, demoStore [2, 3, 5, 6, 7]⟩ : Context Unit) 4 (by decide) (by decide)
    (by decide) (by decide) (by decide)
  ⟨demoKey_injective, by decide, h.1 (demoStore_decodes _), h.2⟩

/-! ## The entry of the current height -/

/-- C9: with a window of at least `1`, `TrackHistoricalInfo` returns when the
stored entries decode, and whenever it returns the lookup at the current height
returns `found = true` with the snapshot `NewHistoricalInfo` builds from the
header of the block and the last validator set, whatever the store held there
before; the codec decodes what it encoded, and the last validator set does not
depend on the historical entries. -/
theorem track_writes_current {H V : Type} [Inhabited H] (k : Keeper H V)
    (hrt : RoundTrip k)
    (hlv : ∀ (c : Context H) (h : Int),
      k.GetLastValidators (DeleteHistoricalInfo k c h) = k.GetLastValidators c)
    (ctx : Context H) (hw1 : 1 ≤ ctx.HistoricalEntries) :
    (Decodes k ctx.store → ∃ ctx2, TrackHistoricalInfo k ctx = some ctx2) ∧
    ∀ ctx2, TrackHistoricalInfo k ctx = some ctx2 →
      GetHistoricalInfo k ctx2 ctx.BlockHeight
        = some (k.NewHistoricalInfo ctx.BlockHeader (k.GetLastValidators ctx), true) := by
  refine ⟨track_total k ctx, ?_⟩
  intro ctx2 h2
  obtain ⟨ctx1, hp, heq⟩ := (track_unfold k ctx ctx2).1 h2
  rw [if_neg (by omega)] at heq
  obtain ⟨e1, e2, e3⟩ := pruneLoop_fields k hlv _ ctx ctx1 hp
  rw [e1, e2, e3] at heq
  apply GetHistoricalInfo_present k ctx2 ctx.BlockHeight
    (k.MustMarshalHistoricalInfo (k.NewHistoricalInfo ctx.BlockHeader (k.GetLastValidators ctx)))
  · rw [heq]
    show (if k.GetHistoricalInfoKey ctx.BlockHeight = k.GetHistoricalInfoKey ctx.BlockHeight
      then _ else _) = _
    rw [if_pos rfl]
  · exact hrt _

/-- C9 at the concrete keeper: height `5`, window `3`, entries at the heights
`2 .. 5`. -/
theorem track_writes_current_witness :
    RoundTrip demoKeeper ∧ Decodes demoKeeper (demoStore [2, 3, 4, 5]) ∧
    (∃ ctx2, TrackHistoricalInfo demoKeeper ⟨5, (), 3, demoStore [2, 3, 4, 5]⟩ = some ctx2) ∧
    ∀ ctx2, TrackHistoricalInfo demoKeeper ⟨5, (), 3, demoStore [2, 3, 4, 5]⟩ = some ctx2 →
      GetHistoricalInfo demoKeeper ctx2 5 = some (⟨(), []⟩, true) :=
  have h := track_writes_current demoKeeper demoKeeper_roundTrip (fun _ _ => rfl)
    (⟨5, (), 3, demoStore [2, 3, 4, 5]⟩ : Context Unit) (by decide)
  ⟨demoKeeper_roundTrip, demoStore_decodes _, h.1 (demoStore_decodes _), h.2⟩

/-! ## Contiguity of the stored heights -/

/-- Blocks tracked in turn with windows that are all at least `1`, from a store
that holds exactly the heights `lo .. h0 - 1`: the run returns and the store
then holds exactly the heights `lo1 .. h0 + n - 1` for some `lo1`, a block
without a gap. -/
theorem trackBlocks_contiguous_of_pos {H V : Type} [Inhabited H] (k : Keeper H V)
    (hinj : Function.Injective k.GetHistoricalInfoKey) (hrt : RoundTrip k) (hdr : Int → H) :
    ∀ (ws : List Nat) (h0 lo : Int) (store : KVStore),
      (∀ w ∈ ws, 1 ≤ w ∧ (w : Int) ≤ MaxInt64) → 0 ≤ lo → lo ≤ h0 →
      h0 + (ws.length : Int) - 1 ≤ MaxInt64 → Decodes k store →
      (∀ x : Int, hasEntry k store x = true ↔ lo ≤ x ∧ x < h0) →
      ∃ (store1 : KVStore) (lo1 : Int),
        trackBlocks k hdr store h0 ws = some store1 ∧ 0 ≤ lo1 ∧
        lo1 ≤ h0 + (ws.length : Int) ∧
        ∀ x : Int, hasEntry k store1 x = true ↔ lo1 ≤ x ∧ x < h0 + (ws.length : Int) := by
  intro ws
  induction ws with
  | nil =>
    intro h0 lo store _ h1 h2 _ _ hblock
    refine ⟨store, lo, rfl, h1, ?_, ?_⟩
    · simp only [List.length_nil, Nat.cast_zero, add_zero]; exact h2
    · intro x
      rw [hblock x]
      simp only [List.length_nil, Nat.cast_zero, add_zero]
  | cons w ws ih =>
    intro h0 lo store hws h1 h2 h4 hdec hblock
    simp only [List.length_cons, Nat.cast_add, Nat.cast_one] at h4 ⊢
    obtain ⟨hw1, hwm⟩ := hws w (List.mem_cons_self _ _)
    obtain ⟨ctx2, ht, hd2, hb2⟩ := track_block k hinj hrt ⟨h0, hdr h0, w, store⟩ lo
      hw1 hwm (by show h0 ≤ MaxInt64; omega) h1 h2 hdec hblock
    have hb2a : ∀ x : Int, hasEntry k ctx2.store x = true ↔
        max lo (h0 - (w : Int) + 1) ≤ x ∧ x ≤ h0 := hb2
    simp only [trackBlocks, ht]
    obtain ⟨store1, lo1, hs1, hl0, hl1, hb1⟩ := ih (h0 + 1) (max lo (h0 - (w : Int) + 1))
      ctx2.store (fun v hv => hws v (List.mem_cons_of_mem _ hv)) (by omega) (by omega)
      (by omega) hd2 (by intro x; rw [hb2a x]; omega)
    refine ⟨store1, lo1, hs1, hl0, by omega, ?_⟩
    intro x
    rw [hb1 x]
    omega

/-- C10 fails on the code: tracking the heights `0 .. 4` from the empty store
with the windows `3, 3, 3, 0, 3` leaves entries at the heights `2` and `4` and
none at `3`: the stored heights have a gap. -/
theorem track_contiguity_broken_by_zero_window :
    (trackBlocks demoKeeper (fun _ => ()) KVStore.empty 0 [3, 3, 3, 0, 3]).map
      (fun s => [0, 1, 2, 3, 4].map (fun h => hasEntry demoKeeper s h))
      = some [false, false, true, false, true] := by
  decide

/-! ## Set, Delete and Get -/

/-- C11: `SetHistoricalInfo` overwrites without condition and `GetHistoricalInfo`
reads it back: whatever the store held at the height before, the lookup after
the write returns the written snapshot and `found = true`, when the codec
decodes the encoding of that snapshot. -/
theorem set_then_get {H V : Type} [Inhabited H] (k : Keeper H V) (ctx : Context H)
    (h : Int) (info : HistoricalInfo H V)
    (hrt : k.MustUnmarshalHistoricalInfo (k.MustMarshalHistoricalInfo info) = some info) :
    GetHistoricalInfo k (SetHistoricalInfo k ctx h info) h = some (info, true) := by
  apply GetHistoricalInfo_present k _ h (k.MustMarshalHistoricalInfo info) info _ hrt
  show (if k.GetHistoricalInfoKey h = k.GetHistoricalInfoKey h then _ else _) = _
  rw [if_pos rfl]

/-- C11 at the concrete keeper: a snapshot with two validators written at the
height `7`, which held another value. -/
theorem set_then_get_witness :
    demoKeeper.MustUnmarshalHistoricalInfo
      (demoKeeper.MustMarshalHistoricalInfo ⟨(), [(), ()]⟩) = some ⟨(), [(), ()]⟩ ∧
    GetHistoricalInfo demoKeeper
      (SetHistoricalInfo demoKeeper ⟨9, (), 3, demoStore [7]⟩ 7 ⟨(), [(), ()]⟩) 7
      = some (⟨(), [(), ()]⟩, true) :=
  ⟨by decide, set_then_get demoKeeper ⟨9, (), 3, demoStore [7]⟩ 7 ⟨(), [(), ()]⟩ (by decide)⟩

/-- C12: `DeleteHistoricalInfo` removes without condition: the lookup at the
height after the deletion returns the zero value and `found = false`; and when
the store holds nothing at the height, the deletion returns the context as it
was. -/
theorem delete_then_get {H V : Type} [Inhabited H] (k : Keeper H V) (ctx : Context H)
    (h : Int) :
    GetHistoricalInfo k (DeleteHistoricalInfo k ctx h) h = some (⟨default, []⟩, false) ∧
    (ctx.store.Get (k.GetHistoricalInfoKey h) = none → DeleteHistoricalInfo k ctx h = ctx) := by
  constructor
  · apply GetHistoricalInfo_absent
    show (if k.GetHistoricalInfoKey h = k.GetHistoricalInfoKey h then none else _) = none
    rw [if_pos rfl]
  · intro habs
    have hs : ctx.store.Delete (k.GetHistoricalInfoKey h) = ctx.store := by
      funext b
      show (if b = k.GetHistoricalInfoKey h then none else ctx.store b) = ctx.store b
      by_cases hb : b = k.GetHistoricalInfoKey h
      · rw [if_pos hb, hb]; exact habs.symm
      · rw [if_neg hb]
    show ({ ctx with store := ctx.store.Delete (k.GetHistoricalInfoKey h) } : Context H) = ctx
    rw [hs]

/-- C12 at the concrete keeper: the height `7` is stored, the height `8` is not. -/
theorem delete_then_get_witness :
    GetHistoricalInfo demoKeeper (DeleteHistoricalInfo demoKeeper ⟨9, (), 3, demoStore [7]⟩ 7) 7
      = some (⟨default, []⟩, false) ∧
    (demoStore [7]).Get (demoKey 8) = none ∧
    DeleteHistoricalInfo demoKeeper ⟨9, (), 3, demoStore [7]⟩ 8
      = (⟨9, (), 3, demoStore [7]⟩ : Context Unit) :=
  ⟨(delete_then_get demoKeeper ⟨9, (), 3, demoStore [7]⟩ 7).1, by decide,
    (delete_then_get demoKeeper ⟨9, (), 3, demoStore [7]⟩ 8).2 (by decide)⟩

/-- C13: `GetHistoricalInfo` tells absence from corruption.  It returns
`found = false` exactly when the store holds no value under the key of the
height, and then with the zero value; when a value is stored and decodes it
returns the decoded value and `found = true`; when a value is stored and does
not decode the call panics, so it reports nothing. -/
theorem get_absent_present_corrupt {H V : Type} [Inhabited H] (k : Keeper H V)
    (ctx : Context H) (h : Int) :
    (∀ hi : HistoricalInfo H V, GetHistoricalInfo k ctx h = some (hi, false) ↔
      (ctx.store.Get (k.GetHistoricalInfoKey h) = none ∧ hi = ⟨default, []⟩)) ∧
    (∀ (v : Bytes) (hi : HistoricalInfo H V),
      ctx.store.Get (k.GetHistoricalInfoKey h) = some v →
      k.MustUnmarshalHistoricalInfo v = some hi →
      GetHistoricalInfo k ctx h = some (hi, true)) ∧
    (∀ v : Bytes, ctx.store.Get (k.GetHistoricalInfoKey h) = some v →
      k.MustUnmarshalHistoricalInfo v = none → GetHistoricalInfo k ctx h = none) := by
  refine ⟨?_, ?_, ?_⟩
  · intro hi
    constructor
    · intro hg
      cases hv : ctx.store (k.GetHistoricalInfoKey h) with
      | none =>
        rw [GetHistoricalInfo_absent k ctx h hv] at hg
        simp only [Option.some.injEq, Prod.mk.injEq, and_true] at hg
        exact ⟨hv, hg.symm⟩
      | some v =>
        cases hd : k.MustUnmarshalHistoricalInfo v with
        | none => rw [GetHistoricalInfo_corrupt k ctx h v hv hd] at hg; exact Option.noConfusion hg
        | some x =>
          rw [GetHistoricalInfo_present k ctx h v x hv hd] at hg
          simp at hg
    · rintro ⟨hv, rfl⟩
      exact GetHistoricalInfo_absent k ctx h hv
  · intro v hi hv hd
    exact GetHistoricalInfo_present k ctx h v hi hv hd
  · intro v hv hd
    exact GetHistoricalInfo_corrupt k ctx h v hv hd

/-- C13 at the concrete keeper: the height `7` holds a value that decodes, the
height `8` the byte `0`, which does not decode, and the height `9` nothing. -/
theorem get_absent_present_corrupt_witness :
    GetHistoricalInfo demoKeeper ⟨9, (), 3, (demoStore [7]).Set (demoKey 8) [0]⟩ 9
      = some (⟨(), []⟩, false) ∧
    GetHistoricalInfo demoKeeper ⟨9, (), 3, (demoStore [7]).Set (demoKey 8) [0]⟩ 7
      = some (⟨(), []⟩, true) ∧
    GetHistoricalInfo demoKeeper ⟨9, (), 3, (demoStore [7]).Set (demoKey 8) [0]⟩ 8 = none :=
  have h9 := get_absent_present_corrupt demoKeeper
    ⟨9, (), 3, (demoStore [7]).Set (demoKey 8) [0]⟩ 9
  have h7 := get_absent_present_corrupt demoKeeper
    ⟨9, (), 3, (demoStore [7]).Set (demoKey 8) [0]⟩ 7
  have h8 := get_absent_present_corrupt demoKeeper
    ⟨9, (), 3, (demoStore [7]).Set (demoKey 8) [0]⟩ 8
  ⟨(h9.1 _).2 ⟨by decide, rfl⟩, h7.2.1 [] _ (by decide) (by decide),
    h8.2.2 [0] (by decide) (by decide)⟩

/-! ## What one call deletes and what it leaves -/

/-- C17: the exact set of deleted entries, with `s = BlockHeight -
HistoricalEntries` (no `int64` overflow) and `m` the greatest height `≤ s`
without an entry, or `-1` when every height `0 .. s` has one.
`TrackHistoricalInfo` returns when the stored entries decode, and whenever it
returns, no height `h` with `max m (-1) < h ≤ s` holds an entry afterwards, and
every key that held a value before and holds none afterwards is the key of
such a height. -/
theorem track_deletes_exactly {H V : Type} [Inhabited H] (k : Keeper H V)
    (hinj : Function.Injective k.GetHistoricalInfoKey) (ctx : Context H) (m : Int)
    (hw : (ctx.HistoricalEntries : Int) ≤ MaxInt64)
    (hlo : MinInt64 ≤ ctx.BlockHeight - (ctx.HistoricalEntries : Int))
    (hhi : ctx.BlockHeight ≤ MaxInt64)
    (hm : (m ≤ ctx.BlockHeight - (ctx.HistoricalEntries : Int) ∧
        hasEntry k ctx.store m = false ∧
        ∀ j : Int, m < j → j ≤ ctx.BlockHeight - (ctx.HistoricalEntries : Int) →
          hasEntry k ctx.store j = true) ∨
      (m = -1 ∧ ∀ j : Int, 0 ≤ j → j ≤ ctx.BlockHeight - (ctx.HistoricalEntries : Int) →
          hasEntry k ctx.store j = true)) :
    (Decodes k ctx.store → ∃ ctx2, TrackHistoricalInfo k ctx = some ctx2) ∧
    ∀ ctx2, TrackHistoricalInfo k ctx = some ctx2 →
      (∀ h : Int, max m (-1) < h → h ≤ ctx.BlockHeight - (ctx.HistoricalEntries : Int) →
        hasEntry k ctx2.store h = false) ∧
      (∀ b : Bytes, ctx.store b ≠ none → ctx2.store b = none →
        ∃ h : Int, max m (-1) < h ∧ h ≤ ctx.BlockHeight - (ctx.HistoricalEntries : Int) ∧
          b = k.GetHistoricalInfoKey h) := by
  refine ⟨track_total k ctx, ?_⟩
  intro ctx2 h2
  obtain ⟨ctx1, m1, hm1, hall, hstop, hdel, hframe, _, _, _, heq⟩ :=
    track_spec k hinj ctx ctx2 hw hlo hhi h2
  have hst := store_after_write k ctx ctx1 ctx2 _ _ heq
  have hstop2 : m1 = 0 ∨ ctx.store (k.GetHistoricalInfoKey ((m1 : Int) - 1)) = none := by
    rcases hstop with h0 | hs
    · exact Or.inl h0
    · exact Or.inr ((hasEntry_eq_false_iff k ctx.store _).1 hs)
  have hpres : ∀ j : Int, max m (-1) < j →
      j ≤ ctx.BlockHeight - (ctx.HistoricalEntries : Int) →
      ∃ v, ctx.store (k.GetHistoricalInfoKey j) = some v := by
    intro j h1 h2
    rw [← hasEntry_eq_true_iff]
    rcases hm with ⟨_, _, ha⟩ | ⟨_, ha⟩
    · exact ha j (by omega) h2
    · exact ha j (by omega) h2
  refine ⟨?_, ?_⟩
  · intro h h1 h2
    have hm1h : (m1 : Int) ≤ h := by
      by_contra hcon
      rcases hstop2 with h0 | hs
      · omega
      · obtain ⟨v, hv⟩ := hpres ((m1 : Int) - 1) (by omega) (by omega)
        rw [hs] at hv
        exact Option.noConfusion hv
    have h1n : ctx1.store (k.GetHistoricalInfoKey h) = none := by
      rw [hdel, if_pos ⟨hm1h, h2⟩]
    rw [hasEntry_eq_false_iff, hst]
    by_cases hz : ctx.HistoricalEntries = 0
    · rw [if_pos hz]; exact h1n
    · rw [if_neg hz, if_neg, h1n]
      intro hk
      have := hinj hk
      omega
  · intro b hb hb2
    rw [hst] at hb2
    have h1 : ctx1.store b = none := by
      by_cases hz : ctx.HistoricalEntries = 0
      · rw [if_pos hz] at hb2; exact hb2
      · rw [if_neg hz] at hb2
        by_cases hk : b = k.GetHistoricalInfoKey ctx.BlockHeight
        · rw [if_pos hk] at hb2; exact Option.noConfusion hb2
        · rw [if_neg hk] at hb2; exact hb2
    by_cases hx : ∃ x : Int, b = k.GetHistoricalInfoKey x
    · obtain ⟨x, rfl⟩ := hx
      rw [hdel] at h1
      by_cases hc : (m1 : Int) ≤ x ∧ x ≤ ctx.BlockHeight - (ctx.HistoricalEntries : Int)
      · refine ⟨x, ?_, hc.2, rfl⟩
        rcases hm with ⟨hms, hmabs, _⟩ | ⟨hm1eq, _⟩
        · have hmlt : m < (m1 : Int) := by
            by_contra hcon
            have := hall m (by omega) hms
            rw [hmabs] at this
            exact Bool.noConfusion this
          omega
        · omega
      · rw [if_neg hc] at h1; exact absurd h1 hb
    · rw [hframe b (fun x hbx => hx ⟨x, hbx⟩)] at h1
      exact absurd h1 hb

/-- C17 at the concrete keeper: height `10`, window `3`, entries at the heights
`2, 3, 5, 6, 7, 8`; the scan starts at `7` and `m = 4`. -/
theorem track_deletes_exactly_witness :
    Function.Injective demoKeeper.GetHistoricalInfoKey ∧
    (∃ ctx2, TrackHistoricalInfo demoKeeper ⟨10, (), 3, demoStore [2, 3, 5, 6, 7, 8]⟩
      = some ctx2) ∧
    ∀ ctx2, TrackHistoricalInfo demoKeeper ⟨10, (), 3, demoStore [2, 3, 5, 6, 7, 8]⟩
      = some ctx2 →
      (∀ h : Int, max 4 (-1) < h → h ≤ 10 - ((3 : Nat) : Int) →
        hasEntry demoKeeper ctx2.store h = false) ∧
      (∀ b : Bytes, demoStore [2, 3, 5, 6, 7, 8] b ≠ none → ctx2.store b = none →
        ∃ h : Int, max 4 (-1) < h ∧ h ≤ 10 - ((3 : Nat) : Int) ∧ b = demoKey h) :=
  have h := track_deletes_exactly demoKeeper demoKey_injective
    (⟨10, (), 3, demoStore [2, 3, 5, 6, 7, 8]⟩ : Context Unit) 4 (by decide) (by decide)
    (by decide)
    (Or.inl ⟨by decide, by decide, fun j h1 h2 =>
      (demoStore_hasEntry [2, 3, 5, 6, 7, 8] j).2 (by
        simp only [List.mem_cons, List.mem_singleton, List.not_mem_nil, or_false]
        have h3 : j ≤ 7 := h2
        omega)⟩)
  ⟨demoKey_injective, h.1 (demoStore_decodes _), h.2⟩

/-- C18: the frame of `TrackHistoricalInfo`, with `s = BlockHeight -
HistoricalEntries` (no `int64` overflow).  It returns when the stored entries
decode, and whenever it returns: every height other than the current one that
is above `s` or negative has the lookup result it had before, and every key
that is not the key of a height has the value it had before. -/
theorem track_frame {H V : Type} [Inhabited H] (k : Keeper H V)
    (hinj : Function.Injective k.GetHistoricalInfoKey) (ctx : Context H)
    (hw : (ctx.HistoricalEntries : Int) ≤ MaxInt64)
    (hlo : MinInt64 ≤ ctx.BlockHeight - (ctx.HistoricalEntries : Int))
    (hhi : ctx.BlockHeight ≤ MaxInt64) :
    (Decodes k ctx.store → ∃ ctx2, TrackHistoricalInfo k ctx = some ctx2) ∧
    ∀ ctx2, TrackHistoricalInfo k ctx = some ctx2 →
      (∀ h : Int, h ≠ ctx.BlockHeight →
        ctx.BlockHeight - (ctx.HistoricalEntries : Int) < h ∨ h < 0 →
        GetHistoricalInfo k ctx2 h = GetHistoricalInfo k ctx h) ∧
      (∀ b : Bytes, (∀ x : Int, b ≠ k.GetHistoricalInfoKey x) → ctx2.store b = ctx.store b) := by
  refine ⟨track_total k ctx, ?_⟩
  intro ctx2 h2
  obtain ⟨ctx1, m1, _, _, _, hdel, hframe, _, _, _, heq⟩ :=
    track_spec k hinj ctx ctx2 hw hlo hhi h2
  have hst := store_after_write k ctx ctx1 ctx2 _ _ heq
  refine ⟨?_, ?_⟩
  · intro h hne hout
    apply GetHistoricalInfo_congr
    have h1 : ctx1.store (k.GetHistoricalInfoKey h) = ctx.store (k.GetHistoricalInfoKey h) := by
      rw [hdel, if_neg]
      intro hc; omega
    rw [hst]
    by_cases hz : ctx.HistoricalEntries = 0
    · rw [if_pos hz, h1]
    · rw [if_neg hz, if_neg (fun hk => hne (hinj hk)), h1]
  · intro b hb
    rw [hst, hframe b hb]
    by_cases hz : ctx.HistoricalEntries = 0
    · rw [if_pos hz]
    · rw [if_neg hz, if_neg (hb _)]

/-- C18 at the concrete keeper: height `10`, window `3`, entries at the heights
`-1` and `5 .. 9`; the lookups at `8`, `9` and `-1` do not change. -/
theorem track_frame_witness :
    Function.Injective demoKeeper.GetHistoricalInfoKey ∧
    (∃ ctx2, TrackHistoricalInfo demoKeeper ⟨10, (), 3, demoStore [-1, 5, 6, 7, 8, 9]⟩
      = some ctx2) ∧
    ∀ ctx2, TrackHistoricalInfo demoKeeper ⟨10, (), 3, demoStore [-1, 5, 6, 7, 8, 9]⟩
      = some ctx2 →
      GetHistoricalInfo demoKeeper ctx2 8 = some (⟨(), []⟩, true) ∧
      GetHistoricalInfo demoKeeper ctx2 9 = some (⟨(), []⟩, true) ∧
      GetHistoricalInfo demoKeeper ctx2 (-1) = some (⟨(), []⟩, true) ∧
      GetHistoricalInfo demoKeeper ctx2 (-2) = some (⟨(), []⟩, false) :=
  have h := track_frame demoKeeper demoKey_injective
    (⟨10, (), 3, demoStore [-1, 5, 6, 7, 8, 9]⟩ : Context Unit) (by decide) (by decide)
    (by decide)
  ⟨demoKey_injective, h.1 (demoStore_decodes _), fun ctx2 h2 =>
    ⟨((h.2 ctx2 h2).1 8 (by decide) (Or.inl (by decide))).trans (by decide),
      ((h.2 ctx2 h2).1 9 (by decide) (Or.inl (by decide))).trans (by decide),
      ((h.2 ctx2 h2).1 (-1) (by decide) (Or.inr (by decide))).trans (by decide),
      ((h.2 ctx2 h2).1 (-2) (by decide) (Or.inr (by decide))).trans (by decide)⟩⟩

/-! ## Tracking the same block twice -/

/-- C20: tracking the same block again changes nothing.  At a height `c ≥ 0`,
`TrackHistoricalInfo` returns when the stored entries decode, and whenever it
returns a context, the call on that context returns the same context: same
store, same block.  The last validator set does not depend on the historical
entries. -/
theorem track_idempotent {H V : Type} [Inhabited H] (k : Keeper H V)
    (hinj : Function.Injective k.GetHistoricalInfoKey)
    (hlv : ∀ (c : Context H) (h : Int) (hi : HistoricalInfo H V),
      k.GetLastValidators (SetHistoricalInfo k c h hi) = k.GetLastValidators c)
    (ctx : Context H) (h0 : 0 ≤ ctx.BlockHeight) (hhi : ctx.BlockHeight ≤ MaxInt64)
    (hw : (ctx.HistoricalEntries : Int) ≤ MaxInt64) :
    (Decodes k ctx.store → ∃ ctx2, TrackHistoricalInfo k ctx = some ctx2) ∧
    ∀ ctx2, TrackHistoricalInfo k ctx = some ctx2 →
      TrackHistoricalInfo k ctx2 = some ctx2 := by
  refine ⟨track_total k ctx, ?_⟩
  intro ctx2 h2
  have hlo : MinInt64 ≤ ctx.BlockHeight - (ctx.HistoricalEntries : Int) := by
    simp only [MinInt64, MaxInt64] at *; omega
  obtain ⟨ctx1, hp, heq⟩ := (track_unfold k ctx ctx2).1 h2
  rw [start_eq _ _ hw hlo hhi] at hp
  obtain ⟨e1, e2, e3, _⟩ := pruneLoop_spec k hinj _ ctx ctx1 hp
  have hstart : 0 ≤ ctx.BlockHeight - (ctx.HistoricalEntries : Int) →
      ctx1.store (k.GetHistoricalInfoKey (ctx.BlockHeight - (ctx.HistoricalEntries : Int)))
        = none := by
    intro hs
    have hn : (ctx.BlockHeight - (ctx.HistoricalEntries : Int) + 1).toNat
        = (ctx.BlockHeight - (ctx.HistoricalEntries : Int)).toNat + 1 := by omega
    have hcast : (((ctx.BlockHeight - (ctx.HistoricalEntries : Int)).toNat : Nat) : Int)
        = ctx.BlockHeight - (ctx.HistoricalEntries : Int) := by omega
    rw [hn] at hp
    have := pruneLoop_start_absent k _ ctx ctx1 hp
    rw [hcast] at this
    exact this
  by_cases hz : ctx.HistoricalEntries = 0
  · rw [if_pos hz] at heq
    subst heq
    apply track_zero_window_absent k ctx2 (e3.trans hz) (by rw [e1]; exact h0)
      (by rw [e1]; exact hhi)
    have hs := hstart (by rw [hz]; simpa using h0)
    rw [hz] at hs
    rw [e1]
    simpa using hs
  · rw [if_neg hz] at heq
    have f1 : ctx2.BlockHeight = ctx.BlockHeight := by rw [heq]; exact e1
    have f2 : ctx2.BlockHeader = ctx.BlockHeader := by rw [heq]; exact e2
    have f3 : ctx2.HistoricalEntries = ctx.HistoricalEntries := by rw [heq]; exact e3
    have habs : ctx2.BlockHeight - (ctx2.HistoricalEntries : Int) < 0 ∨
        ctx2.store (k.GetHistoricalInfoKey (ctx2.BlockHeight - (ctx2.HistoricalEntries : Int)))
          = none := by
      rw [f1, f3]
      by_cases hneg : ctx.BlockHeight - (ctx.HistoricalEntries : Int) < 0
      · exact Or.inl hneg
      · right
        have hs := hstart (by omega)
        rw [heq]
        show (if k.GetHistoricalInfoKey (ctx.BlockHeight - (ctx.HistoricalEntries : Int))
          = k.GetHistoricalInfoKey ctx1.BlockHeight then _ else
            ctx1.store (k.GetHistoricalInfoKey
              (ctx.BlockHeight - (ctx.HistoricalEntries : Int)))) = none
        rw [if_neg, hs]
        intro hk
        have := hinj hk
        rw [e1] at this
        omega
    have ht := track_of_absent k ctx2 (by rw [f3]; exact hw) (by rw [f1, f3]; exact hlo)
      (by rw [f1]; exact hhi) habs
    rw [if_neg (by rw [f3]; exact hz)] at ht
    rw [ht]
    congr 1
    have hg : k.GetLastValidators ctx2 = k.GetLastValidators ctx1 := by
      rw [heq]; exact hlv _ _ _
    rw [hg, f1, f2, ← e1, ← e2]
    rw [heq]
    exact SetHistoricalInfo_twice k ctx1 _ _

/-- C20 at the concrete keeper: height `10`, window `3`, entries at `5 .. 9`. -/
theorem track_idempotent_witness :
    Function.Injective demoKeeper.GetHistoricalInfoKey ∧
    (∃ ctx2, TrackHistoricalInfo demoKeeper ⟨10, (), 3, demoStore [5, 6, 7, 8, 9]⟩
      = some ctx2) ∧
    ∀ ctx2, TrackHistoricalInfo demoKeeper ⟨10, (), 3, demoStore [5, 6, 7, 8, 9]⟩
      = some ctx2 →
      TrackHistoricalInfo demoKeeper ctx2 = some ctx2 :=
  have h := track_idempotent demoKeeper demoKey_injective (fun _ _ _ => rfl)
    (⟨10, (), 3, demoStore [5, 6, 7, 8, 9]⟩ : Context Unit) (by decide) (by decide)
    (by decide)
  ⟨demoKey_injective, h.1 (demoStore_decodes _), h.2⟩

/-! ## Termination and cost of the pruning loop -/

/-- C19: the pruning loop of `TrackHistoricalInfo` terminates, with `s =
BlockHeight - HistoricalEntries` (no `int64` overflow): run with fuel for
`max 0 (s + 1)` iterations it does not run out of fuel, it ends as the
structural `pruneLoop` does, it makes at most `max 0 (s + 1)` lookups and at
most as many deletions, and none of either when the window is larger than the
current height. -/
theorem prune_loop_terminates {H V : Type} [Inhabited H] (k : Keeper H V)
    (ctx : Context H) (fuel : Nat)
    (hw : (ctx.HistoricalEntries : Int) ≤ MaxInt64)
    (hlo : MinInt64 ≤ ctx.BlockHeight - (ctx.HistoricalEntries : Int))
    (hhi : ctx.BlockHeight ≤ MaxInt64)
    (hfuel : max 0 (ctx.BlockHeight - (ctx.HistoricalEntries : Int) + 1) ≤ (fuel : Int)) :
    (pruneLoopFuel k fuel ctx
        (wrapInt64 (ctx.BlockHeight - wrapInt64 (ctx.HistoricalEntries : Int)))).result
      ≠ LoopEnd.outOfFuel ∧
    (pruneLoopFuel k fuel ctx
        (wrapInt64 (ctx.BlockHeight - wrapInt64 (ctx.HistoricalEntries : Int)))).result
      = LoopEnd.ofOption (pruneLoop k ctx
          (wrapInt64 (ctx.BlockHeight - wrapInt64 (ctx.HistoricalEntries : Int)) + 1).toNat) ∧
    ((pruneLoopFuel k fuel ctx
        (wrapInt64 (ctx.BlockHeight - wrapInt64 (ctx.HistoricalEntries : Int)))).lookups : Int)
      ≤ max 0 (ctx.BlockHeight - (ctx.HistoricalEntries : Int) + 1) ∧
    ((pruneLoopFuel k fuel ctx
        (wrapInt64 (ctx.BlockHeight - wrapInt64 (ctx.HistoricalEntries : Int)))).deletions : Int)
      ≤ max 0 (ctx.BlockHeight - (ctx.HistoricalEntries : Int) + 1) ∧
    (ctx.BlockHeight < (ctx.HistoricalEntries : Int) →
      (pruneLoopFuel k fuel ctx
        (wrapInt64 (ctx.BlockHeight - wrapInt64 (ctx.HistoricalEntries : Int)))).lookups = 0 ∧
      (pruneLoopFuel k fuel ctx
        (wrapInt64 (ctx.BlockHeight - wrapInt64 (ctx.HistoricalEntries : Int)))).deletions
        = 0) := by
  rw [start_eq _ _ hw hlo hhi]
  obtain ⟨h1, h2, h3⟩ := pruneLoopFuel_spec k fuel ctx
    (ctx.BlockHeight - (ctx.HistoricalEntries : Int)) (by omega)
  refine ⟨?_, h1, by omega, by omega, ?_⟩
  · rw [h1]
    cases pruneLoop k ctx (ctx.BlockHeight - (ctx.HistoricalEntries : Int) + 1).toNat with
    | none => intro h; exact LoopEnd.noConfusion h
    | some c => intro h; exact LoopEnd.noConfusion h
  · intro hlt
    constructor <;> omega

/-- C19 at the concrete keeper: height `10`, window `3`, entries at `5 .. 7`,
fuel `8`; and height `2` with window `3`, where nothing is looked up. -/
theorem prune_loop_terminates_witness :
    (((pruneLoopFuel demoKeeper 8 ⟨10, (), 3, demoStore [5, 6, 7]⟩
        (wrapInt64 (10 - wrapInt64 ((3 : Nat) : Int)))).lookups : Nat) : Int)
      ≤ max 0 (10 - ((3 : Nat) : Int) + 1) ∧
    (pruneLoopFuel demoKeeper 8 ⟨10, (), 3, demoStore [5, 6, 7]⟩
        (wrapInt64 (10 - wrapInt64 ((3 : Nat) : Int)))).lookups = 4 ∧
    (pruneLoopFuel demoKeeper 8 ⟨10, (), 3, demoStore [5, 6, 7]⟩
        (wrapInt64 (10 - wrapInt64 ((3 : Nat) : Int)))).deletions = 3 ∧
    (pruneLoopFuel demoKeeper 0 ⟨2, (), 3, demoStore [0, 1]⟩
        (wrapInt64 (2 - wrapInt64 ((3 : Nat) : Int)))).lookups = 0 :=
  ⟨(prune_loop_terminates demoKeeper (⟨10, (), 3, demoStore [5, 6, 7]⟩ : Context Unit) 8
      (by decide) (by decide) (by decide) (by decide)).2.2.1,
    by decide, by decide,
    ((prune_loop_terminates demoKeeper (⟨2, (), 3, demoStore [0, 1]⟩ : Context Unit) 0
      (by decide) (by decide) (by decide) (by decide)).2.2.2.2 (by decide)).1⟩

end Staking

namespace SdkModule

/-! ## The module manager: registration and order setters -/

theorem contains_iff_mem (l : List String) (a : String) : l.contains a = true ↔ a ∈ l :=
  List.elem_iff

theorem hasDuplicate_eq_false_iff (l : List String) : hasDuplicate l = false ↔ l.Nodup := by
  induction l with
  | nil => simp [hasDuplicate]
  | cons n ns ih =>
    simp only [hasDuplicate, Bool.or_eq_false_iff, ih, List.nodup_cons]
    constructor
    · rintro ⟨h1, h2⟩
      refine ⟨?_, h2⟩
      intro hmem
      have : ns.contains n = true := (contains_iff_mem _ _).2 hmem
      rw [h1] at this
      exact Bool.noConfusion this
    · rintro ⟨h1, h2⟩
      refine ⟨?_, h2⟩
      cases hc : ns.contains n with
      | false => rfl
      | true => exact absurd ((contains_iff_mem _ _).1 hc) h1

/-- The validation of the order setters accepts exactly the permutations of
the registered names, when these are distinct. -/
theorem validateOrder_iff (registered names : List String) (hreg : registered.Nodup) :
    validateOrder registered names = true ↔ names.Perm registered := by
  unfold validateOrder
  simp only [Bool.and_eq_true, List.all_eq_true, Bool.not_eq_true', hasDuplicate_eq_false_iff]
  constructor
  · rintro ⟨⟨h1, h2⟩, h3⟩
    rw [List.perm_ext_iff_of_nodup h3 hreg]
    intro a
    exact ⟨fun ha => (contains_iff_mem _ _).1 (h2 a ha), fun ha => (contains_iff_mem _ _).1 (h1 a ha)⟩
  · intro hp
    refine ⟨⟨?_, ?_⟩, hp.nodup_iff.2 hreg⟩
    · intro a ha
      exact (contains_iff_mem _ _).2 (hp.mem_iff.2 ha)
    · intro a ha
      exact (contains_iff_mem _ _).2 (hp.mem_iff.1 ha)

/-- Modules whose names are distinct and not yet registered are all registered,
in the order they come. -/
theorem registerAll_ok : ∀ (modules : List AppModule) (reg : List (String × AppModule)),
    (reg.map Prod.fst ++ modules.map (fun a => a.Name)).Nodup →
    registerAll reg modules = Except.ok (reg ++ modules.map (fun a => (a.Name, a))) := by
  intro modules
  induction modules with
  | nil => intro reg _; simp [registerAll]
  | cons a rest ih =>
    intro reg hnd
    have hnot : a.Name ∉ reg.map Prod.fst := by
      intro hmem
      have := (List.nodup_append.1 hnd).2.2
      exact this hmem (List.mem_cons_self _ _) 
    have hany : reg.any (fun e => e.1 == a.Name) = false := by
      cases hc : reg.any (fun e => e.1 == a.Name) with
      | false => rfl
      | true =>
        obtain ⟨e, he, hee⟩ := List.any_eq_true.1 hc
        exact absurd (List.mem_map.2 ⟨e, he, beq_iff_eq.1 hee⟩) hnot
    have hreg : register reg a = Except.ok (reg ++ [(a.Name, a)]) := by
      simp [register, hany]
    simp only [registerAll, hreg]
    rw [ih (reg ++ [(a.Name, a)]) (by simpa [List.append_assoc] using hnd)]
    simp [List.append_assoc]

/-- A registration that succeeds keeps the registered names distinct. -/
theorem registerAll_nodup : ∀ (modules : List AppModule) (reg reg1 : List (String × AppModule)),
    (reg.map Prod.fst).Nodup → registerAll reg modules = Except.ok reg1 →
    (reg1.map Prod.fst).Nodup := by
  intro modules
  induction modules with
  | nil =>
    intro reg reg1 hnd h
    simp only [registerAll, Except.ok.injEq] at h
    exact h ▸ hnd
  | cons a rest ih =>
    intro reg reg1 hnd h
    unfold registerAll at h
    cases hany : reg.any (fun e => e.1 == a.Name) with
    | true => simp [register, hany] at h
    | false =>
      have hreg : register reg a = Except.ok (reg ++ [(a.Name, a)]) := by
        simp [register, hany]
      rw [hreg] at h
      simp only at h
      refine ih (reg ++ [(a.Name, a)]) reg1 ?_ h
      rw [List.map_append, List.nodup_append]
      refine ⟨hnd, by simp, ?_⟩
      intro x hx hx2
      simp only [List.map_cons, List.map_nil, List.mem_singleton] at hx2
      subst hx2
      obtain ⟨e, he, hee⟩ := List.mem_map.1 hx
      have : reg.any (fun e => e.1 == a.Name) = true :=
        List.any_eq_true.2 ⟨e, he, beq_iff_eq.2 hee⟩
      rw [hany] at this
      exact Bool.noConfusion this

/-- What `NewManager` builds satisfies the invariant of the data model. -/
theorem newManager_valid (modules : List AppModule) (m : Manager)
    (h : NewManager modules = Except.ok m) : m.Valid := by
  unfold NewManager at h
  cases hr : registerAll [] modules with
  | error e => rw [hr] at h; simp at h
  | ok reg =>
    rw [hr] at h
    simp only [Except.ok.injEq] at h
    subst h
    have hnd := registerAll_nodup modules [] reg (by simp) hr
    exact ⟨hnd, List.Perm.refl _, List.Perm.refl _, List.Perm.refl _, List.Perm.refl _⟩

/-- A list that an order setter accepts is a permutation of the registered
names, when these are distinct. -/
theorem perm_of_validateOrder (m : Manager) (names : List String) (hreg : m.moduleNames.Nodup)
    (e : ConfigError) (m0 m1 : Manager)
    (h : (if validateOrder m.moduleNames names then Except.ok m0 else Except.error e)
      = Except.ok m1) :
    names.Perm m.moduleNames ∧ m1 = m0 := by
  cases hv : validateOrder m.moduleNames names with
  | false => rw [hv] at h; simp at h
  | true =>
    rw [hv] at h
    simp only [if_true, Except.ok.injEq] at h
    exact ⟨(validateOrder_iff _ _ hreg).1 hv, h.symm⟩

/-- Every manager a host can hold satisfies the invariant of the data model. -/
theorem configured_valid (m : Manager) (hc : m.Configured) : m.Valid := by
  induction hc with
  | new modules m h => exact newManager_valid modules m h
  | setInitGenesis m m1 names _ h ih =>
    obtain ⟨hp, rfl⟩ := perm_of_validateOrder m names ih.1 _ _ m1 h
    exact ⟨ih.1, hp, ih.2.2.1, ih.2.2.2.1, ih.2.2.2.2⟩
  | setExportGenesis m m1 names _ h ih =>
    obtain ⟨hp, rfl⟩ := perm_of_validateOrder m names ih.1 _ _ m1 h
    exact ⟨ih.1, ih.2.1, hp, ih.2.2.2.1, ih.2.2.2.2⟩
  | setBeginBlockers m m1 names _ h ih =>
    obtain ⟨hp, rfl⟩ := perm_of_validateOrder m names ih.1 _ _ m1 h
    exact ⟨ih.1, ih.2.1, ih.2.2.1, hp, ih.2.2.2.2⟩
  | setEndBlockers m m1 names _ h ih =>
    obtain ⟨hp, rfl⟩ := perm_of_validateOrder m names ih.1 _ _ m1 h
    exact ⟨ih.1, ih.2.1, ih.2.2.1, ih.2.2.2.1, hp⟩

/-- C14: for modules with pairwise distinct names, `NewManager` registers all
of them, each under its name and in the order they were passed in, and sets
each of the four order lists to the list of their names in that order. -/
theorem newManager_registration_order (modules : List AppModule)
    (hnd : (modules.map (fun a => a.Name)).Nodup) :
    NewManager modules = Except.ok
      ⟨modules.map (fun a => (a.Name, a)), modules.map (fun a => a.Name),
        modules.map (fun a => a.Name), modules.map (fun a => a.Name),
        modules.map (fun a => a.Name)⟩ := by
  unfold NewManager
  rw [registerAll_ok modules [] (by simpa using hnd)]
  simp [Function.comp_def]

/-- C14 at the two modules of the test: the manager has both modules and each
order list is `module1, module2`. -/
theorem newManager_registration_order_witness :
    (testModules.map (fun a => a.Name)).Nodup ∧
    NewManager testModules = Except.ok testManager :=
  ⟨by decide, newManager_registration_order testModules (by decide)⟩

/-- C15: for a manager whose registered names are distinct and a permutation
`p` of these names, each of the four order setters returns the manager with
its own order list replaced by `p` and everything else as it was. -/
theorem set_order_accepts_permutation (m : Manager) (p : List String)
    (hreg : m.moduleNames.Nodup) (hp : p.Perm m.moduleNames) :
    m.SetOrderInitGenesis p = Except.ok { m with OrderInitGenesis := p } ∧
    m.SetOrderExportGenesis p = Except.ok { m with OrderExportGenesis := p } ∧
    m.SetOrderBeginBlockers p = Except.ok { m with OrderBeginBlockers := p } ∧
    m.SetOrderEndBlockers p = Except.ok { m with OrderEndBlockers := p } := by
  have hv := (validateOrder_iff m.moduleNames p hreg).2 hp
  simp only [Manager.SetOrderInitGenesis, Manager.SetOrderExportGenesis,
    Manager.SetOrderBeginBlockers, Manager.SetOrderEndBlockers, hv, if_true, and_self]

/-- C15 at the manager of the test and the order `module2, module1`. -/
theorem set_order_accepts_permutation_witness :
    testManager.moduleNames.Nodup ∧
    ["module2", "module1"].Perm testManager.moduleNames ∧
    testManager.SetOrderInitGenesis ["module2", "module1"]
      = Except.ok { testManager with OrderInitGenesis := ["module2", "module1"] } ∧
    testManager.SetOrderEndBlockers ["module2", "module1"]
      = Except.ok { testManager with OrderEndBlockers := ["module2", "module1"] } :=
  have h := set_order_accepts_permutation testManager ["module2", "module1"] (by decide)
    (by decide)
  ⟨by decide, by decide, h.1, h.2.2.2⟩

/-- C16: for a manager whose registered names are distinct and a list of names
that is not a permutation of them, each of the four order setters fails with
the configuration error and returns no manager, so no order list changes; and
every manager a host can hold, built by `NewManager` and changed only by order
setters that did not fail, has four order lists that are permutations of its
registered names. -/
theorem set_order_rejects_non_permutation :
    (∀ (m : Manager) (names : List String), m.moduleNames.Nodup →
      ¬ names.Perm m.moduleNames →
      m.SetOrderInitGenesis names = Except.error (ConfigError.orderNotPermutation names) ∧
      m.SetOrderExportGenesis names = Except.error (ConfigError.orderNotPermutation names) ∧
      m.SetOrderBeginBlockers names = Except.error (ConfigError.orderNotPermutation names) ∧
      m.SetOrderEndBlockers names = Except.error (ConfigError.orderNotPermutation names)) ∧
    (∀ m : Manager, m.Configured → m.Valid) := by
  refine ⟨?_, configured_valid⟩
  intro m names hreg hn
  have hv : validateOrder m.moduleNames names = false := by
    cases hc : validateOrder m.moduleNames names with
    | false => rfl
    | true => exact absurd ((validateOrder_iff _ _ hreg).1 hc) hn
  simp [Manager.SetOrderInitGenesis, Manager.SetOrderExportGenesis,
    Manager.SetOrderBeginBlockers, Manager.SetOrderEndBlockers, hv]

/-- C16 at the manager of the test: a list with a name missing, a list with an
unknown name and a list with a duplicate are each refused. -/
theorem set_order_rejects_non_permutation_witness :
    testManager.SetOrderInitGenesis ["module1"]
      = Except.error (ConfigError.orderNotPermutation ["module1"]) ∧
    testManager.SetOrderBeginBlockers ["module1", "module3"]
      = Except.error (ConfigError.orderNotPermutation ["module1", "module3"]) ∧
    testManager.SetOrderEndBlockers ["module1", "module1"]
      = Except.error (ConfigError.orderNotPermutation ["module1", "module1"]) ∧
    testManager.Valid :=
  ⟨(set_order_rejects_non_permutation.1 testManager ["module1"] (by decide) (by decide)).1,
    (set_order_rejects_non_permutation.1 testManager ["module1", "module3"] (by decide)
      (by decide)).2.2.1,
    (set_order_rejects_non_permutation.1 testManager ["module1", "module1"] (by decide)
      (by decide)).2.2.2,
    set_order_rejects_non_permutation.2 testManager
      (Manager.Configured.new testModules testManager rfl)⟩

end SdkModule
